import Mathlib

/-!
# Buddy allocator (`src/buddy_allocator.cpp`, `src/buddy_allocator.h`)

A shallow embedding of `BuddyAllocator`.

* `size_t` is a 64-bit unsigned integer: arithmetic on sizes is taken modulo `2^64`.
* Addresses (`void*`, `char*`) are natural numbers, `0` is `nullptr`; the arena obtained from
  `malloc` starts at `memory_pool`.
* `Block*` is an index into `heap`, the store of the `Block` records made by `new Block`
  (which is taken to succeed); `delete` empties the slot, and reading an empty or absent slot
  is undefined behaviour.
* `free_blocks` is the C array of 32 vectors; each vector is a list whose last element is
  `back()`. Indexing the array at 32 or above is undefined behaviour.
* Operations run in `Except Err`: the two C++ exceptions, undefined behaviour, a loop that
  never ends, and exhaustion of the iteration budget of the model are the errors.
-/

namespace Buddy

/-- Outcomes of an operation other than a normal return. -/
inductive Err where
  | bad_alloc
  | runtime_error
  | undefined_behaviour
  | nontermination
  | out_of_fuel
deriving DecidableEq, Repr

/-- The record `struct Block` of `buddy_allocator.h`. `memory` is an absolute address,
`buddy` and `parent` are `Block*` (`none` is `nullptr`). -/
structure Block where
  size : Nat
  free : Bool
  memory : Nat
  buddy : Option Nat
  parent : Option Nat
deriving DecidableEq, Repr

/-- The data members of `class BuddyAllocator`, together with the store of `Block` records. -/
structure BuddyAllocator where
  total_size : Nat
  used_memory : Nat
  memory_pool : Nat
  free_blocks : List (List Nat)
  heap : List (Option Block)
deriving DecidableEq, Repr

/-- Width of `size_t`. -/
def SIZE_MOD : Nat := 2 ^ 64

/-- Constructor `Block(s, mem)`: a free block without buddy or parent. -/
def Block.mk_new (s mem : Nat) : Block :=
  { size := s, free := true, memory := mem, buddy := none, parent := none }

/-- Dereference of a `Block*`. -/
def deref (h : List (Option Block)) (p : Nat) : Except Err Block :=
  match h[p]? with
  | some (some b) => .ok b
  | _ => .error .undefined_behaviour

/-- The loop `while (power < size) power <<= 1;` on a 64-bit `power`. The first argument
bounds the number of iterations; `none` means the loop is still running when the bound is
used up. -/
def pow2_loop : Nat → Nat → Nat → Option Nat
  | 0, power, size => if power < size then none else some power
  | fuel + 1, power, size =>
    if power < size then pow2_loop fuel ((power <<< 1) % SIZE_MOD) size else some power

/-- `BuddyAllocator::get_next_power_of_two`. Starting from 1, 64 doublings of a 64-bit value
give 0, which doubling leaves at 0: a loop that has not ended after 64 iterations never ends. -/
def get_next_power_of_two (size : Nat) : Except Err Nat :=
  if size = 0 then .ok 1
  else
    match pow2_loop 64 1 size with
    | some power => .ok power
    | none => .error .nontermination

/-- The integer part of the binary logarithm, by repeated halving; the first argument bounds
the number of halvings. -/
def log2_floor : Nat → Nat → Nat
  | 0, _ => 0
  | fuel + 1, n => if 2 ≤ n then log2_floor fuel (n / 2) + 1 else 0

/-- `BuddyAllocator::get_index_for_size`: `static_cast<size_t>(log2(size))`. A `size_t` is
below `2^64`, so 64 halvings reach its logarithm. Every argument the allocator passes is a
power of two, on which the floating-point `log2` is exact. -/
def get_index_for_size (size : Nat) : Nat :=
  if size = 0 then 0 else log2_floor 64 size

/-- The loop `for (i = index + 1; i < 32; ++i)` of `find_best_block`: the first class from `i`
on whose vector is not empty. The first argument is the number of classes left, `32 - i`. -/
def search_from (fb : List (List Nat)) : Nat → Nat → Option Nat
  | 0, _ => none
  | k + 1, i => if (fb.getD i []).isEmpty then search_from fb k (i + 1) else some i

/-- The statements `block = free_blocks[i].back(); free_blocks[i].pop_back(); return block;`. -/
def take_back (s : BuddyAllocator) (i : Nat) : Option Nat × BuddyAllocator :=
  ((s.free_blocks.getD i []).getLast?,
   { s with free_blocks := s.free_blocks.set i (s.free_blocks.getD i []).dropLast })

/-- `BuddyAllocator::find_best_block`: the returned `Block*` (`none` is `nullptr`) and the
state after the call. -/
def find_best_block (s : BuddyAllocator) (size : Nat) : Except Err (Option Nat × BuddyAllocator) :=
  let index := get_index_for_size size
  if 32 ≤ index then .error .undefined_behaviour
  else if !(s.free_blocks.getD index []).isEmpty then .ok (take_back s index)
  else
    match search_from s.free_blocks (32 - (index + 1)) (index + 1) with
    | some i => .ok (take_back s i)
    | none => .ok (none, s)

/-- `BuddyAllocator::split_block`. The new record takes the next free slot of the store. -/
def split_block (s : BuddyAllocator) (block : Nat) : Except Err BuddyAllocator :=
  match deref s.heap block with
  | .error e => .error e
  | .ok b =>
    let new_size := b.size / 2
    let buddy_memory := b.memory + new_size
    let buddy := s.heap.length
    let b1 : Block := { b with size := new_size, buddy := some buddy, parent := none }
    let bud : Block :=
      { size := new_size, free := true, memory := buddy_memory, buddy := some block,
        parent := b.parent }
    let heap1 := s.heap.set block (some b1) ++ [some bud]
    let index := get_index_for_size new_size
    if 32 ≤ index then .error .undefined_behaviour
    else
      let list := (s.free_blocks.getD index []).filter (fun x => x ≠ block)
      .ok { s with heap := heap1,
                   free_blocks := s.free_blocks.set index ((list ++ [block]) ++ [buddy]) }

/-- The loop `while (block->size > adjusted_size) { split_block(block);
block = find_best_block(adjusted_size); }` of `allocate`; returns the final `block`. The first
argument bounds the number of iterations. -/
def split_loop : Nat → BuddyAllocator → Nat → Nat → Except Err (Nat × BuddyAllocator)
  | 0, s, block, adjusted_size =>
    match deref s.heap block with
    | .error e => .error e
    | .ok b => if b.size > adjusted_size then .error .out_of_fuel else .ok (block, s)
  | fuel + 1, s, block, adjusted_size =>
    match deref s.heap block with
    | .error e => .error e
    | .ok b =>
      if b.size > adjusted_size then
        match split_block s block with
        | .error e => .error e
        | .ok s1 =>
          match find_best_block s1 adjusted_size with
          | .error e => .error e
          | .ok (none, _) => .error .undefined_behaviour
          | .ok (some block1, s2) => split_loop fuel s2 block1 adjusted_size
      else .ok (block, s)

/-- `BuddyAllocator::allocate`: the returned address (`0` is `nullptr`) and the state after
the call. A block of class at most 31 is halved at most 31 times, so 32 iterations of the
split loop are allowed. -/
def allocate (s : BuddyAllocator) (size : Nat) : Except Err (Nat × BuddyAllocator) :=
  if size = 0 then .ok (0, s)
  else
    match get_next_power_of_two size with
    | .error e => .error e
    | .ok adjusted_size =>
      match find_best_block s adjusted_size with
      | .error e => .error e
      | .ok (none, s1) => .ok (0, s1)
      | .ok (some block, s1) =>
        match split_loop 32 s1 block adjusted_size with
        | .error e => .error e
        | .ok (block1, s2) =>
          match deref s2.heap block1 with
          | .error e => .error e
          | .ok b =>
            .ok (b.memory,
                 { s2 with heap := s2.heap.set block1 (some { b with free := false }),
                           used_memory := (s2.used_memory + b.size) % SIZE_MOD })

/-- The inner loop of `deallocate` over one vector: the first block whose range holds `ptr`. -/
def find_in_list (h : List (Option Block)) (ptr : Nat) : List Nat → Except Err (Option Nat)
  | [] => .ok none
  | x :: xs =>
    match deref h x with
    | .error e => .error e
    | .ok b =>
      if b.memory ≤ ptr ∧ b.memory + b.size > ptr then .ok (some x)
      else find_in_list h ptr xs

/-- The outer loop of `deallocate` over the vectors of `free_blocks`, in index order. -/
def find_block (h : List (Option Block)) (ptr : Nat) : List (List Nat) → Except Err (Option Nat)
  | [] => .ok none
  | l :: ls =>
    match find_in_list h ptr l with
    | .error e => .error e
    | .ok (some x) => .ok (some x)
    | .ok none => find_block h ptr ls

/-- `BuddyAllocator::get_buddy`. -/
def get_buddy (s : BuddyAllocator) (block : Option Nat) : Except Err (Option Nat) :=
  match block with
  | none => .ok none
  | some blk =>
    match deref s.heap blk with
    | .error e => .error e
    | .ok b =>
      if b.size = s.total_size then .ok none
      else
        let buddy_offset := b.size
        let buddy_mem := b.memory + buddy_offset
        if buddy_mem + buddy_offset > s.memory_pool + s.total_size then .ok none
        else .ok b.buddy

/-- The body of `BuddyAllocator::merge_buddies` for a non-null `block`, up to the recursive
call: the state it leaves, and the `parent` it goes on with (`none` when it returns).
`list.erase(block_it)` invalidates `buddy_it` when the buddy stands after the block in the
vector, and erasing through it is then undefined behaviour. -/
def merge_once (s : BuddyAllocator) (block : Nat) : Except Err (BuddyAllocator × Option Nat) :=
  match get_buddy s (some block) with
  | .error e => .error e
  | .ok none => .ok (s, none)
  | .ok (some buddy) =>
    match deref s.heap buddy with
    | .error e => .error e
    | .ok bud =>
      if !bud.free then .ok (s, none)
      else
        match deref s.heap block with
        | .error e => .error e
        | .ok b =>
          let index := get_index_for_size b.size
          if 32 ≤ index then .error .undefined_behaviour
          else
            let list := s.free_blocks.getD index []
            let block_it := list.indexOf block
            let buddy_it := list.indexOf buddy
            if block_it = list.length ∨ buddy_it = list.length then .ok (s, none)
            else if block_it ≤ buddy_it then .error .undefined_behaviour
            else
              let list1 := (list.eraseIdx block_it).eraseIdx buddy_it
              let parent_mem := if b.memory < bud.memory then b.memory else bud.memory
              let parent := s.heap.length
              let par : Block := Block.mk_new ((b.size * 2) % SIZE_MOD) parent_mem
              let index1 := get_index_for_size par.size
              if 32 ≤ index1 then .error .undefined_behaviour
              else
                let fb1 := s.free_blocks.set index list1
                let fb2 := fb1.set index1 (fb1.getD index1 [] ++ [parent])
                let heap1 := ((s.heap ++ [some par]).set block none).set buddy none
                .ok ({ s with free_blocks := fb2, heap := heap1 }, some parent)

/-- `BuddyAllocator::merge_buddies`; the first argument bounds the depth of the recursion. -/
def merge_buddies : Nat → BuddyAllocator → Option Nat → Except Err BuddyAllocator
  | _, s, none => .ok s
  | 0, s, some block =>
    match merge_once s block with
    | .error e => .error e
    | .ok (s1, none) => .ok s1
    | .ok (_, some _) => .error .out_of_fuel
  | fuel + 1, s, some block =>
    match merge_once s block with
    | .error e => .error e
    | .ok (s1, none) => .ok s1
    | .ok (s1, some parent) => merge_buddies fuel s1 (some parent)

/-- `BuddyAllocator::deallocate`. `.error .runtime_error` is the `throw`; the state is then the
one before the call. -/
def deallocate (s : BuddyAllocator) (ptr : Nat) : Except Err BuddyAllocator :=
  if ptr = 0 then .ok s
  else
    match find_block s.heap ptr s.free_blocks with
    | .error e => .error e
    | .ok none => .error .runtime_error
    | .ok (some block_to_free) =>
      match deref s.heap block_to_free with
      | .error e => .error e
      | .ok b =>
        merge_buddies 32
          { s with heap := s.heap.set block_to_free (some { b with free := true }),
                   used_memory := (s.used_memory + SIZE_MOD - b.size) % SIZE_MOD }
          (some block_to_free)

/-- Constructor `BuddyAllocator::BuddyAllocator(size)`. `pool` is what `malloc(total_size)`
returns (`0` when it fails). -/
def construct (size pool : Nat) : Except Err BuddyAllocator :=
  match pow2_loop 64 1 size with
  | none => .error .nontermination
  | some total_size =>
    if pool = 0 then .error .bad_alloc
    else
      let index := get_index_for_size total_size
      if 32 ≤ index then .error .undefined_behaviour
      else
        .ok { total_size := total_size, used_memory := 0, memory_pool := pool,
              free_blocks := (List.replicate 32 []).set index [0],
              heap := [some (Block.mk_new total_size pool)] }

/-- `get_total_memory`. -/
def get_total_memory (s : BuddyAllocator) : Nat := s.total_size

/-- `get_used_memory`. -/
def get_used_memory (s : BuddyAllocator) : Nat := s.used_memory

/-- The vector `free_blocks[i]`. -/
def cls (s : BuddyAllocator) (i : Nat) : List Nat := s.free_blocks.getD i []

/-- The record a `Block*` points to, when the slot holds one. -/
def block_at (s : BuddyAllocator) (p : Nat) : Option Block := (s.heap[p]?).join

/-- Sum of `f` over the records of the store. -/
def heap_sum (f : Block → Nat) (h : List (Option Block)) : Nat :=
  (h.map (fun o => match o with | some b => f b | none => 0)).sum

/-- Size of a record when it is allocated (`free == false`), else 0. -/
def alloc_size (b : Block) : Nat := if b.free then 0 else b.size

/-- Well-formedness of an allocator state. `hole` is the block held by `allocate` between its
removal from a free list and its hand-out: it is free and in no list. Between two public calls
`hole` is `none`. -/
structure WF (s : BuddyAllocator) (hole : Option Nat) : Prop where
  len : s.free_blocks.length = 32
  tot : ∃ K, K ≤ 31 ∧ s.total_size = 2 ^ K
  pool : 0 < s.memory_pool
  live : ∀ b, b < s.heap.length → ∃ B, block_at s b = some B
  mem : ∀ i b, b ∈ cls s i → ∃ B, block_at s b = some B ∧ B.size = 2 ^ i ∧ B.free = true
  nodup : ∀ i, (cls s i).Nodup
  held : ∀ h, hole = some h → (∀ i, h ∉ cls s i) ∧ ∃ B, block_at s h = some B ∧ B.free = true
  alloc : ∀ b B, block_at s b = some B → (∀ i, b ∉ cls s i) → hole ≠ some b → B.free = false
  geom : ∀ b B, block_at s b = some B →
    (∃ k, k ≤ 31 ∧ B.size = 2 ^ k) ∧ s.memory_pool ≤ B.memory ∧
      B.memory + B.size ≤ s.memory_pool + s.total_size
  disj : ∀ b c B C, b ≠ c → block_at s b = some B → block_at s c = some C →
    B.memory + B.size ≤ C.memory ∨ C.memory + C.size ≤ B.memory
  bud : ∀ c C d, block_at s c = some C → C.buddy = some d →
    ∃ D, block_at s d = some D ∧ D.size ≤ C.size ∧
      (D.size = C.size → (∀ i, c ∉ cls s i) ∨ (∀ i, d ∉ cls s i))
  sum : heap_sum Block.size s.heap = s.total_size

/-- The counter `used_memory` agrees with the records: it is the sum of the sizes of the
allocated blocks. -/
def Acct (s : BuddyAllocator) : Prop := s.used_memory = heap_sum alloc_size s.heap

/-- States reachable from the constructor by calls of `allocate` and `deallocate` that
return. A call of `deallocate` that throws leaves the state as it was. -/
inductive Reachable : BuddyAllocator → Prop where
  | construct (size pool : Nat) (s : BuddyAllocator) :
      construct size pool = .ok s → Reachable s
  | allocate (s s1 : BuddyAllocator) (n p : Nat) :
      Reachable s → allocate s n = .ok (p, s1) → Reachable s1
  | deallocate (s s1 : BuddyAllocator) (p : Nat) :
      Reachable s → deallocate s p = .ok s1 → Reachable s1

/-- States reachable from the constructor by calls of `allocate` only. -/
inductive ReachableByAlloc : BuddyAllocator → Prop where
  | construct (size pool : Nat) (s : BuddyAllocator) :
      construct size pool = .ok s → ReachableByAlloc s
  | allocate (s s1 : BuddyAllocator) (n p : Nat) :
      ReachableByAlloc s → allocate s n = .ok (p, s1) → ReachableByAlloc s1

/-- The record of a block after `split_block`: the lower half. -/
def lower_half (B : Block) (newb : Nat) : Block :=
  { B with size := B.size / 2, buddy := some newb, parent := none }

/-- The record `split_block` creates: the upper half. -/
def upper_half (B : Block) (b : Nat) : Block :=
  { size := B.size / 2, free := true, memory := B.memory + B.size / 2, buddy := some b,
    parent := B.parent }

/-- The state after `split_block(b)` followed by the `find_best_block` that takes the new
upper half back out of its list. -/
def after_split (s : BuddyAllocator) (b : Nat) (B : Block) : BuddyAllocator :=
  { s with heap := s.heap.set b (some (lower_half B s.heap.length)) ++ [some (upper_half B b)],
           free_blocks := s.free_blocks.set (get_index_for_size (B.size / 2)) [b] }

/-- The state after `split_block(b)` when the list of the halves was empty before. -/
def split_state (s : BuddyAllocator) (b : Nat) (B : Block) : BuddyAllocator :=
  { s with heap := s.heap.set b (some (lower_half B s.heap.length)) ++ [some (upper_half B b)],
           free_blocks :=
             s.free_blocks.set (get_index_for_size (B.size / 2)) [b, s.heap.length] }

/-- What the split loop of `allocate` achieves, started in state `s` on the held block `b`
of class `k` for a request of class `t`: it ends in state `sf` holding block `bf`. -/
structure SplitPost (s : BuddyAllocator) (b : Nat) (B : Block) (k t : Nat)
    (bf : Nat) (sf : BuddyAllocator) (Bf : Block) : Prop where
  wf : WF sf (some bf)
  at_bf : block_at sf bf = some Bf
  size : Bf.size = 2 ^ t
  memory : Bf.memory + 2 ^ t = B.memory + 2 ^ k
  used : sf.used_memory = s.used_memory
  total : sf.total_size = s.total_size
  pool : sf.memory_pool = s.memory_pool
  outside : ∀ j, (j < t ∨ k ≤ j) → cls sf j = cls s j
  inside : ∀ j, t ≤ j → j < k → ∃ x, cls sf j = [x]
  heap_len : sf.heap.length = s.heap.length + (k - t)
  frame : ∀ c, c ≠ b → c < s.heap.length → block_at sf c = block_at s c
  fresh : bf = b ∨ s.heap.length ≤ bf
  acct : heap_sum alloc_size sf.heap = heap_sum alloc_size s.heap
  same : k = t → bf = b ∧ sf = s

/-- The state `allocate` leaves when it hands out block `bf`. -/
def hand_out (sf : BuddyAllocator) (bf : Nat) (Bf : Block) : BuddyAllocator :=
  { sf with heap := sf.heap.set bf (some { Bf with free := false }),
            used_memory := (sf.used_memory + Bf.size) % SIZE_MOD }

/-- What a successful `allocate` of class `t` does to a well-formed state `s`: the donor is
the last block `x` of the first non-empty class `m` from `t` on; `p` is the returned address
and `s1` the state after the call. -/
structure AllocPost (s : BuddyAllocator) (t m x : Nat) (B : Block) (p : Nat)
    (s1 : BuddyAllocator) : Prop where
  last : cls s m = (cls s m).dropLast ++ [x]
  donor : block_at s x = some B
  donor_size : B.size = 2 ^ m
  ptr : p + 2 ^ t = B.memory + 2 ^ m
  ptr_pos : p ≠ 0
  wf : WF s1 none
  used : s1.used_memory = (s.used_memory + 2 ^ t) % SIZE_MOD
  total : s1.total_size = s.total_size
  pool : s1.memory_pool = s.memory_pool
  at_m : cls s1 m = (cls s m).dropLast
  outside : ∀ j, (j < t ∨ m < j) → cls s1 j = cls s j
  inside : ∀ j, t ≤ j → j < m → ∃ y, cls s1 j = [y]
  heap_len : s1.heap.length = s.heap.length + (m - t)
  frame : ∀ c, c ≠ x → c < s.heap.length → block_at s1 c = block_at s c
  block : ∃ bf Bf, block_at s1 bf = some Bf ∧ Bf.free = false ∧ Bf.memory = p ∧
    Bf.size = 2 ^ t ∧ (bf = x ∨ s.heap.length ≤ bf)
  acct : heap_sum alloc_size s1.heap = heap_sum alloc_size s.heap + 2 ^ t
  same : m = t → s1.free_blocks = s.free_blocks.set t (cls s t).dropLast

/-- The state the constructor builds for a total size `2^K` and an arena at `pool`. -/
def fresh (K pool : Nat) : BuddyAllocator :=
  { total_size := 2 ^ K, used_memory := 0, memory_pool := pool,
    free_blocks := (List.replicate 32 []).set K [0],
    heap := [some (Block.mk_new (2 ^ K) pool)] }

/-- A sequence of `allocate` requests issued one after the other from state `s`: the pairs
(returned address, requested size) of the calls that returned an address. Nothing is defined
after a call that does not return. -/
def run_allocs : BuddyAllocator → List Nat → List (Nat × Nat)
  | _, [] => []
  | s, n :: ns =>
    match allocate s n with
    | .ok (p, s1) => if p = 0 then run_allocs s1 ns else (p, n) :: run_allocs s1 ns
    | .error _ => []

/-- The address ranges `[p, p + next_power_of_two(n))` of two allocations do not meet. -/
def ranges_apart (r1 r2 : Nat × Nat) : Prop :=
  ∀ a1 a2, get_next_power_of_two r1.2 = .ok a1 → get_next_power_of_two r2.2 = .ok a2 →
    r1.1 + a1 ≤ r2.1 ∨ r2.1 + a2 ≤ r1.1

/-- The range of an allocation lies in the arena and meets no allocated block of `s`. -/
def range_clear (s : BuddyAllocator) (r : Nat × Nat) : Prop :=
  ∃ a, get_next_power_of_two r.2 = .ok a ∧ s.memory_pool ≤ r.1 ∧
    r.1 + a ≤ s.memory_pool + s.total_size ∧
    ∀ c C, block_at s c = some C → C.free = false → C.memory + C.size ≤ r.1 ∨ r.1 + a ≤ C.memory

/-- The state after `allocate(n)` in state `s` (`s` itself when the call does not return). -/
def state_after_allocate (s : BuddyAllocator) (n : Nat) : BuddyAllocator :=
  match allocate s n with
  | .ok (_, s1) => s1
  | .error _ => s

/-- The state after `deallocate(p)` in state `s` (`s` itself when the call throws). -/
def state_after_deallocate (s : BuddyAllocator) (p : Nat) : BuddyAllocator :=
  match deallocate s p with
  | .ok s1 => s1
  | .error _ => s

/-- The state after a sequence of `allocate` requests issued one after the other from state
`s`; it stops at a call that does not return. -/
def state_after_run : BuddyAllocator → List Nat → BuddyAllocator
  | s, [] => s
  | s, n :: ns =>
    match allocate s n with
    | .ok (_, s1) => state_after_run s1 ns
    | .error _ => s

/-- A property of allocator states that the constructor establishes and that every
elementary step of `allocate` and `deallocate` keeps: taking the back of a free list, one
split followed by the removal of the new upper half, the hand-out of the held block, and a
change of the counter `used_memory`. -/
structure Closed (P : BuddyAllocator → Prop) : Prop where
  init : ∀ K pool, K ≤ 31 → 0 < pool → P (fresh K pool)
  take : ∀ s m, P s → P (take_back s m).2
  split : ∀ s b B k, WF s (some b) → block_at s b = some B → B.size = 2 ^ k → 0 < k → k ≤ 31 →
    P s → P (after_split s b B)
  hand : ∀ s b B, WF s (some b) → block_at s b = some B → P s → P (hand_out s b B)
  used : ∀ s u, P s → P { s with used_memory := u }

/-- Every address of the arena lies in the range of some block record. -/
def Covers (s : BuddyAllocator) : Prop :=
  ∀ addr, s.memory_pool ≤ addr → addr < s.memory_pool + s.total_size →
    ∃ b B, block_at s b = some B ∧ B.memory ≤ addr ∧ addr < B.memory + B.size

/-- Block `b` stands in one of the free lists. -/
def in_free_lists (s : BuddyAllocator) (b : Nat) : Prop := ∃ i, b ∈ cls s i

/-- Record `B` of block `b` is extant: the block is in a free list, or it was handed out
(`free == false`). -/
def extant (s : BuddyAllocator) (b : Nat) (B : Block) : Prop :=
  block_at s b = some B ∧ (in_free_lists s b ∨ B.free = false)

/-- The offset of every block record from the arena base is a multiple of its size. -/
def Aligned (s : BuddyAllocator) : Prop :=
  ∀ b B, block_at s b = some B → (B.memory - s.memory_pool) % B.size = 0

/-- The stored buddy of every block record lies at the offset `offset XOR size`. -/
def BuddyOffsets (s : BuddyAllocator) : Prop :=
  ∀ c C d D, block_at s c = some C → C.buddy = some d → block_at s d = some D →
    D.memory - s.memory_pool = (C.memory - s.memory_pool) ^^^ C.size

/-- Alignment of the blocks together with the offsets of the stored buddies. -/
def BuddyGeometry (s : BuddyAllocator) : Prop := Aligned s ∧ BuddyOffsets s

/-- Size of a record when it is free (`free == true`), else 0. -/
def free_size (b : Block) : Nat := if b.free then b.size else 0

theorem log2_floor_pow (f : Nat) : ∀ k, k ≤ f → log2_floor f (2 ^ k) = k := by
  induction f with
  | zero => intro k hk; simp at hk; subst hk; simp [log2_floor]
  | succ f ih =>
    intro k hk
    cases k with
    | zero => simp [log2_floor]
    | succ k =>
      have h2 : 2 ≤ 2 ^ (k + 1) := by
        have : 0 < 2 ^ k := by positivity
        omega
      have h3 : 2 ^ (k + 1) / 2 = 2 ^ k := by
        rw [pow_succ]; simp
      simp [log2_floor, h2, h3, ih k (by omega)]

theorem get_index_for_size_pow (k : Nat) (hk : k ≤ 64) : get_index_for_size (2 ^ k) = k := by
  have : (2:Nat) ^ k ≠ 0 := by positivity
  simp [get_index_for_size, this, log2_floor_pow 64 k hk]

theorem getD_set_list {α : Type} (l : List α) (i j : Nat) (x d : α) (hi : i < l.length) :
    (l.set i x).getD j d = if j = i then x else l.getD j d := by
  simp only [List.getD_eq_getElem?_getD, List.getElem?_set]
  by_cases h : i = j
  · subst h; simp [hi]
  · have h' : ¬ j = i := fun e => h e.symm
    simp [h, h']

theorem pow2_loop_zero (fuel : Nat) : pow2_loop fuel 1 0 = some 1 := by
  cases fuel <;> simp [pow2_loop]

theorem pow2_loop_spec (size : Nat) (hs : 0 < size) :
    ∀ fuel j r, j + fuel = 64 → pow2_loop fuel (2 ^ j % SIZE_MOD) size = some r →
      ∃ K, j ≤ K ∧ K ≤ 63 ∧ r = 2 ^ K ∧ size ≤ 2 ^ K := by
  intro fuel
  induction fuel with
  | zero =>
    intro j r hj h
    have : j = 64 := by omega
    subst this
    simp [pow2_loop, SIZE_MOD, hs] at h
  | succ fuel ih =>
    intro j r hj h
    have hj63 : j ≤ 63 := by omega
    have hlt : 2 ^ j < 2 ^ 64 := Nat.pow_lt_pow_right (by norm_num) (by omega)
    have hm : 2 ^ j % SIZE_MOD = 2 ^ j := Nat.mod_eq_of_lt (by simpa [SIZE_MOD] using hlt)
    rw [hm] at h
    unfold pow2_loop at h
    by_cases hc : 2 ^ j < size
    · simp only [hc, if_true] at h
      have e : (2 ^ j <<< 1) % SIZE_MOD = 2 ^ (j + 1) % SIZE_MOD := by
        simp [Nat.shiftLeft_eq, pow_succ]
      rw [e] at h
      obtain ⟨K, h1, h2, h3, h4⟩ := ih (j + 1) r (by omega) h
      exact ⟨K, by omega, h2, h3, h4⟩
    · simp only [hc, if_false, Option.some.injEq] at h
      exact ⟨j, le_refl _, hj63, h.symm, by omega⟩

theorem get_next_power_of_two_spec (n a : Nat) (h : get_next_power_of_two n = .ok a) :
    ∃ t, t ≤ 63 ∧ a = 2 ^ t ∧ n ≤ 2 ^ t := by
  unfold get_next_power_of_two at h
  by_cases hn : n = 0
  · simp [hn] at h
    exact ⟨0, by omega, by simpa using h.symm, by simp [hn]⟩
  · simp only [hn, if_false] at h
    cases hp : pow2_loop 64 1 n with
    | none => simp [hp] at h
    | some r =>
      simp [hp] at h
      have h1 : pow2_loop 64 (2 ^ 0 % SIZE_MOD) n = some r := by simpa [SIZE_MOD] using hp
      obtain ⟨K, _, h2, h3, h4⟩ := pow2_loop_spec n (by omega) 64 0 r (by omega) h1
      exact ⟨K, h2, by rw [← h, h3], h4⟩

theorem join_get_set (h : List (Option Block)) (b c : Nat) (X : Block) (hb : b < h.length) :
    ((h.set b (some X))[c]?).join = if c = b then some X else (h[c]?).join := by
  rw [List.getElem?_set]
  by_cases e : b = c
  · subst e; simp [hb]
  · have e' : ¬ c = b := fun x => e x.symm
    simp [e, e']

theorem join_get_append (h : List (Option Block)) (c : Nat) (X : Block) :
    ((h ++ [some X])[c]?).join = if c = h.length then some X else (h[c]?).join := by
  by_cases e : c = h.length
  · subst e; simp
  · simp only [e, if_false]
    rcases Nat.lt_or_gt_of_ne e with h1 | h1
    · rw [List.getElem?_append_left h1]
    · rw [List.getElem?_eq_none (by simp; omega), List.getElem?_eq_none (by omega)]

theorem block_at_lt (s : BuddyAllocator) (b : Nat) (B : Block) (h : block_at s b = some B) :
    b < s.heap.length := by
  unfold block_at at h
  by_contra hc
  rw [List.getElem?_eq_none (by omega)] at h
  simp at h

theorem deref_of_block_at (s : BuddyAllocator) (b : Nat) (B : Block)
    (h : block_at s b = some B) : deref s.heap b = .ok B := by
  unfold block_at at h
  unfold deref
  cases hq : s.heap[b]? with
  | none => simp [hq] at h
  | some o =>
    cases o with
    | none => simp [hq] at h
    | some X => simp [hq] at h; simp [h]

theorem cls_set (s : BuddyAllocator) (i j : Nat) (l : List Nat) (hi : i < s.free_blocks.length) :
    (s.free_blocks.set i l).getD j [] = if j = i then l else cls s j := by
  unfold cls
  exact getD_set_list _ _ _ _ _ hi

theorem search_from_some (fb : List (List Nat)) :
    ∀ k i m, search_from fb k i = some m →
      i ≤ m ∧ m < i + k ∧ fb.getD m [] ≠ [] ∧ ∀ j, i ≤ j → j < m → fb.getD j [] = [] := by
  intro k
  induction k with
  | zero => intro i m h; simp [search_from] at h
  | succ k ih =>
    intro i m h
    unfold search_from at h
    by_cases e : (fb.getD i []).isEmpty
    · simp only [e, if_true] at h
      obtain ⟨h1, h2, h3, h4⟩ := ih (i + 1) m h
      refine ⟨by omega, by omega, h3, ?_⟩
      intro j hj1 hj2
      by_cases ej : j = i
      · subst ej; simpa using e
      · exact h4 j (by omega) hj2
    · simp only [e] at h
      simp at h
      subst h
      refine ⟨le_refl _, by omega, ?_, ?_⟩
      · simpa using e
      · intro j h1 h2; omega

theorem search_from_none (fb : List (List Nat)) :
    ∀ k i, search_from fb k i = none → ∀ j, i ≤ j → j < i + k → fb.getD j [] = [] := by
  intro k
  induction k with
  | zero => intro i _ j h1 h2; omega
  | succ k ih =>
    intro i h j h1 h2
    unfold search_from at h
    by_cases e : (fb.getD i []).isEmpty
    · simp only [e, if_true] at h
      by_cases ej : j = i
      · subst ej; simpa using e
      · exact ih (i + 1) h j (by omega) (by omega)
    · rw [if_neg e] at h
      cases h

theorem search_from_first (fb : List (List Nat)) :
    ∀ k i m, i ≤ m → m < i + k → fb.getD m [] ≠ [] →
      (∀ j, i ≤ j → j < m → fb.getD j [] = []) → search_from fb k i = some m := by
  intro k
  induction k with
  | zero => intro i m h1 h2; omega
  | succ k ih =>
    intro i m h1 h2 h3 h4
    unfold search_from
    by_cases e : m = i
    · subst e
      have : (fb.getD m []).isEmpty = false := by
        cases hq : fb.getD m [] with
        | nil => exact absurd hq h3
        | cons a l => rfl
      simp only [this, Bool.false_eq_true, if_false]
    · have : (fb.getD i []).isEmpty = true := by
        rw [h4 i (le_refl _) (by omega)]; rfl
      simp only [this, if_true]
      exact ih (i + 1) m (by omega) (by omega) h3 (fun j a b => h4 j (by omega) b)

theorem find_best_first (s : BuddyAllocator) (t m : Nat) (htm : t ≤ m) (hm : m ≤ 31)
    (hne : cls s m ≠ []) (hem : ∀ j, t ≤ j → j < m → cls s j = []) :
    find_best_block s (2 ^ t) = .ok (take_back s m) := by
  unfold find_best_block
  simp only [get_index_for_size_pow t (by omega)]
  have h32 : ¬ 32 ≤ t := by omega
  simp only [h32, if_false]
  by_cases e : m = t
  · subst e
    have : (s.free_blocks.getD m []).isEmpty = false := by
      cases hq : s.free_blocks.getD m [] with
      | nil => exact absurd hq hne
      | cons a l => rfl
    simp only [this, Bool.not_false, if_true]
  · have : (s.free_blocks.getD t []).isEmpty = true := by
      have := hem t (le_refl _) (by omega)
      unfold cls at this
      rw [this]; rfl
    simp only [this, Bool.not_true, Bool.false_eq_true, if_false]
    rw [search_from_first s.free_blocks (32 - (t + 1)) (t + 1) m (by omega) (by omega) hne
      (fun j a b => hem j (by omega) b)]

theorem find_best_none (s : BuddyAllocator) (t : Nat) (ht : t ≤ 31)
    (hem : ∀ j, t ≤ j → j ≤ 31 → cls s j = []) :
    find_best_block s (2 ^ t) = .ok (none, s) := by
  unfold find_best_block
  simp only [get_index_for_size_pow t (by omega)]
  have h32 : ¬ 32 ≤ t := by omega
  simp only [h32, if_false]
  have : (s.free_blocks.getD t []).isEmpty = true := by
    have := hem t (le_refl _) ht
    unfold cls at this
    rw [this]; rfl
  simp only [this, Bool.not_true, Bool.false_eq_true, if_false]
  cases hq : search_from s.free_blocks (32 - (t + 1)) (t + 1) with
  | none => rfl
  | some m =>
    obtain ⟨h1, h2, h3, _⟩ := search_from_some _ _ _ _ hq
    exact absurd (hem m (by omega) (by omega)) h3

/-- Either every class from `t` to 31 is empty, or there is a first class that is not. -/
theorem first_class (s : BuddyAllocator) (t : Nat) (ht : t ≤ 31) :
    (∀ j, t ≤ j → j ≤ 31 → cls s j = []) ∨
    ∃ m, t ≤ m ∧ m ≤ 31 ∧ cls s m ≠ [] ∧ ∀ j, t ≤ j → j < m → cls s j = [] := by
  cases hq : search_from s.free_blocks (32 - t) t with
  | none =>
    left
    intro j h1 h2
    exact search_from_none _ _ _ hq j h1 (by omega)
  | some m =>
    right
    obtain ⟨h1, h2, h3, h4⟩ := search_from_some _ _ _ _ hq
    exact ⟨m, h1, by omega, h3, h4⟩

theorem cls_take_back (s : BuddyAllocator) (m j : Nat) (hl : s.free_blocks.length = 32)
    (hm : m ≤ 31) :
    cls (take_back s m).2 j = if j = m then (cls s m).dropLast else cls s j := by
  have := cls_set s m j (cls s m).dropLast (by omega)
  simpa [take_back, cls] using this

theorem last_split (l : List Nat) (hne : l ≠ []) :
    ∃ x, l.getLast? = some x ∧ l = l.dropLast ++ [x] := by
  refine ⟨l.getLast hne, List.getLast?_eq_getLast l hne, ?_⟩
  exact (List.dropLast_append_getLast hne).symm

theorem WF_take_back (s : BuddyAllocator) (m : Nat) (hw : WF s none) (hm : m ≤ 31)
    (hne : cls s m ≠ []) :
    ∃ x B, (take_back s m).1 = some x ∧ cls s m = (cls s m).dropLast ++ [x] ∧
      block_at s x = some B ∧ B.size = 2 ^ m ∧ WF (take_back s m).2 (some x) := by
  obtain ⟨x, hx, hsplit⟩ := last_split (cls s m) hne
  have hxm : x ∈ cls s m := by rw [hsplit]; simp
  obtain ⟨B, hB, hBs, hBf⟩ := hw.mem m x hxm
  have hnd := hw.nodup m
  rw [hsplit] at hnd
  have hxnd : x ∉ (cls s m).dropLast := by
    intro hc
    have := List.nodup_append.mp hnd
    exact this.2.2 hc (by simp)
  have hcls := fun j => cls_take_back s m j hw.len hm
  have hsub : ∀ j b, b ∈ cls (take_back s m).2 j → b ∈ cls s j := by
    intro j b hb
    rw [hcls] at hb
    by_cases e : j = m
    · subst e; simp only [if_true] at hb; exact List.mem_of_mem_dropLast hb
    · simpa [e] using hb
  have hxout : ∀ i, x ∉ cls (take_back s m).2 i := by
    intro i hc
    by_cases e : i = m
    · subst e; rw [hcls] at hc; simp only [if_true] at hc; exact hxnd hc
    · obtain ⟨B', hB', hBs', _⟩ := hw.mem i x (hsub i x hc)
      rw [hB] at hB'
      cases hB'
      rw [hBs] at hBs'
      exact e (Nat.pow_right_injective (le_refl 2) hBs').symm
  have hback : ∀ i b, b ∈ cls s i → b ≠ x → b ∈ cls (take_back s m).2 i := by
    intro i b hb hbx
    rw [hcls]
    by_cases e : i = m
    · subst e
      simp only [if_true]
      rw [hsplit] at hb
      rcases List.mem_append.mp hb with h1 | h1
      · exact h1
      · simp at h1; exact absurd h1 hbx
    · simpa [e] using hb
  refine ⟨x, B, hx, hsplit, hB, hBs, ?_⟩
  refine
    { len := by simp [take_back, hw.len]
      tot := hw.tot
      pool := hw.pool
      live := hw.live
      mem := fun i b hb => hw.mem i b (hsub i b hb)
      nodup := ?_
      held := ?_
      alloc := ?_
      geom := hw.geom
      disj := hw.disj
      bud := ?_
      sum := hw.sum }
  · intro i
    rw [hcls]
    by_cases e : i = m
    · subst e
      simp only [if_true]
      exact (List.nodup_append.mp hnd).1
    · simpa [e] using hw.nodup i
  · intro h hh
    cases hh
    exact ⟨hxout, B, hB, hBf⟩
  · intro b B' hb hout hne'
    apply hw.alloc b B' hb
    · intro i hc
      have hbx : b ≠ x := fun e => hne' (by rw [e])
      exact hout i (hback i b hc hbx)
    · simp
  · intro c C d hc hd
    obtain ⟨D, hD, hle, himp⟩ := hw.bud c C d hc hd
    refine ⟨D, hD, hle, fun e => ?_⟩
    rcases himp e with h1 | h1
    · exact Or.inl (fun i hi => h1 i (hsub i c hi))
    · exact Or.inr (fun i hi => h1 i (hsub i d hi))

theorem heap_sum_append (f : Block → Nat) (h : List (Option Block)) (Y : Block) :
    heap_sum f (h ++ [some Y]) = heap_sum f h + f Y := by
  simp [heap_sum]

theorem heap_sum_set (f : Block → Nat) (X B : Block) :
    ∀ (h : List (Option Block)) (b : Nat), (h[b]?).join = some B →
      heap_sum f (h.set b (some X)) + f B = heap_sum f h + f X := by
  intro h
  induction h with
  | nil => intro b hb; simp at hb
  | cons a h ih =>
    intro b hb
    cases b with
    | zero =>
      simp at hb
      subst hb
      simp [heap_sum]
      omega
    | succ b =>
      simp at hb
      have := ih b (by simpa using hb)
      simp [heap_sum] at this ⊢
      omega

theorem half_pow (k : Nat) (hk : 0 < k) : 2 ^ k / 2 = 2 ^ (k - 1) := by
  obtain ⟨j, rfl⟩ : ∃ j, k = j + 1 := ⟨k - 1, by omega⟩
  rw [pow_succ]; simp

theorem split_find_eq (s : BuddyAllocator) (b : Nat) (B : Block) (k t : Nat)
    (hlen : s.free_blocks.length = 32)
    (hB : block_at s b = some B) (hk : B.size = 2 ^ k) (htk : t < k) (hk31 : k ≤ 31)
    (hem : ∀ j, t ≤ j → j < k → cls s j = []) :
    split_block s b = .ok (split_state s b B) ∧
      find_best_block (split_state s b B) (2 ^ t) =
        .ok (some s.heap.length, after_split s b B) := by
  have hhalf : B.size / 2 = 2 ^ (k - 1) := by rw [hk]; exact half_pow k (by omega)
  have hidx : get_index_for_size (B.size / 2) = k - 1 := by
    rw [hhalf]; exact get_index_for_size_pow _ (by omega)
  have hemp : s.free_blocks.getD (k - 1) [] = [] := hem (k - 1) (by omega) (by omega)
  constructor
  · unfold split_block
    rw [deref_of_block_at s b B hB]
    simp only [hidx]
    have : ¬ 32 ≤ k - 1 := by omega
    simp only [this, if_false, hemp, split_state, hidx]
    rfl
  · have hc : ∀ j, cls (split_state s b B) j =
        if j = k - 1 then [b, s.heap.length] else cls s j := by
      intro j
      have := cls_set s (k - 1) j [b, s.heap.length] (by omega)
      simpa [split_state, hidx, cls] using this
    rw [find_best_first _ t (k - 1) (by omega) (by omega)]
    · have e1 := hc (k - 1)
      simp only [if_true, cls] at e1
      simp only [take_back, e1]
      simp [after_split, split_state, hidx]
    · rw [hc]; simp
    · intro j h1 h2
      rw [hc]
      have : ¬ j = k - 1 := by omega
      simp only [this, if_false]
      exact hem j h1 (by omega)

theorem block_at_after_split (s : BuddyAllocator) (b : Nat) (B : Block) (c : Nat)
    (hb : b < s.heap.length) :
    block_at (after_split s b B) c =
      if c = s.heap.length then some (upper_half B b)
      else if c = b then some (lower_half B s.heap.length) else block_at s c := by
  unfold block_at after_split
  simp only
  rw [join_get_append, join_get_set _ _ _ _ hb]
  simp

theorem cls_after_split (s : BuddyAllocator) (b : Nat) (B : Block) (k j : Nat)
    (hlen : s.free_blocks.length = 32) (hk : B.size = 2 ^ k) (hk0 : 0 < k) (hk31 : k ≤ 31) :
    cls (after_split s b B) j = if j = k - 1 then [b] else cls s j := by
  have hhalf : B.size / 2 = 2 ^ (k - 1) := by rw [hk]; exact half_pow k hk0
  have hidx : get_index_for_size (B.size / 2) = k - 1 := by
    rw [hhalf]; exact get_index_for_size_pow _ (by omega)
  have := cls_set s (k - 1) j [b] (by omega)
  simpa [after_split, hidx, cls] using this

theorem WF_after_split (s : BuddyAllocator) (b : Nat) (B : Block) (k t : Nat)
    (hw : WF s (some b)) (hB : block_at s b = some B) (hk : B.size = 2 ^ k)
    (htk : t < k) (hk31 : k ≤ 31) (hem : ∀ j, t ≤ j → j < k → cls s j = []) :
    WF (after_split s b B) (some s.heap.length) := by
  have hb : b < s.heap.length := block_at_lt s b B hB
  have hat := fun c => block_at_after_split s b B c hb
  have hat_new : block_at (after_split s b B) s.heap.length = some (upper_half B b) := by
    rw [hat]; simp
  have hat_b : block_at (after_split s b B) b = some (lower_half B s.heap.length) := by
    rw [hat]; simp [Nat.ne_of_lt hb]
  have hat_old : ∀ c, c ≠ s.heap.length → c ≠ b →
      block_at (after_split s b B) c = block_at s c := by
    intro c h1 h2; rw [hat]; simp [h1, h2]
  have cases_of : ∀ c C, block_at (after_split s b B) c = some C →
      (c = s.heap.length ∧ C = upper_half B b) ∨ (c = b ∧ C = lower_half B s.heap.length) ∨
      (c ≠ s.heap.length ∧ c ≠ b ∧ block_at s c = some C) := by
    intro c C hc
    by_cases e1 : c = s.heap.length
    · subst e1
      rw [hat_new] at hc
      exact Or.inl ⟨rfl, (Option.some.inj hc).symm⟩
    · by_cases e2 : c = b
      · subst e2
        rw [hat_b] at hc
        exact Or.inr (Or.inl ⟨rfl, (Option.some.inj hc).symm⟩)
      · rw [hat_old c e1 e2] at hc
        exact Or.inr (Or.inr ⟨e1, e2, hc⟩)
  have hcl := fun j => cls_after_split s b B k j hw.len hk (by omega) hk31
  have hhalf : B.size / 2 = 2 ^ (k - 1) := by rw [hk]; exact half_pow k (by omega)
  have hkk : 2 ^ k = 2 ^ (k - 1) + 2 ^ (k - 1) := by
    obtain ⟨j, rfl⟩ : ∃ j, k = j + 1 := ⟨k - 1, by omega⟩
    simp [pow_succ]; omega
  have hpos : 0 < 2 ^ (k - 1) := by positivity
  have hpoolE : (after_split s b B).memory_pool = s.memory_pool := rfl
  have htotE : (after_split s b B).total_size = s.total_size := rfl
  have hupS : (upper_half B b).size = 2 ^ (k - 1) := by simp [upper_half, hhalf]
  have hupM : (upper_half B b).memory = B.memory + 2 ^ (k - 1) := by simp [upper_half, hhalf]
  have hloS : (lower_half B s.heap.length).size = 2 ^ (k - 1) := by simp [lower_half, hhalf]
  have hloM : (lower_half B s.heap.length).memory = B.memory := by simp [lower_half]
  obtain ⟨hbout, B0, hB0, hBfree⟩ := hw.held b rfl
  rw [hB] at hB0; cases hB0
  have hgeoB := hw.geom b B hB
  rw [hk] at hgeoB
  have hmem_new : ∀ i c, c ∈ cls (after_split s b B) i →
      (c = b ∧ i = k - 1) ∨ (c ∈ cls s i ∧ c ≠ b) := by
    intro i c hc
    rw [hcl] at hc
    by_cases e : i = k - 1
    · simp [e] at hc; exact Or.inl ⟨hc, e⟩
    · simp only [e, if_false] at hc
      exact Or.inr ⟨hc, fun e' => hbout i (e' ▸ hc)⟩
  have hmem_old : ∀ i c, c ∈ cls s i → c ∈ cls (after_split s b B) i := by
    intro i c hc
    rw [hcl]
    by_cases e : i = k - 1
    · subst e
      rw [hem (k - 1) (by omega) (by omega)] at hc
      simp at hc
    · simpa [e] using hc
  have hlt_of_mem : ∀ i c, c ∈ cls s i → c < s.heap.length := by
    intro i c hc
    obtain ⟨C, hC, _⟩ := hw.mem i c hc
    exact block_at_lt s c C hC
  have hnew_out : ∀ i, s.heap.length ∉ cls (after_split s b B) i := by
    intro i hc
    rcases hmem_new i _ hc with ⟨h1, _⟩ | ⟨h1, _⟩
    · omega
    · have := hlt_of_mem i _ h1; omega
  refine
    { len := by simp [after_split, hw.len]
      tot := hw.tot
      pool := hw.pool
      live := ?_
      mem := ?_
      nodup := ?_
      held := ?_
      alloc := ?_
      geom := ?_
      disj := ?_
      bud := ?_
      sum := ?_ }
  · -- live
    intro c hc
    by_cases e1 : c = s.heap.length
    · subst e1; exact ⟨_, hat_new⟩
    · by_cases e2 : c = b
      · subst e2; exact ⟨_, hat_b⟩
      · rw [hat_old c e1 e2]
        apply hw.live
        simp [after_split] at hc
        omega
  · -- mem
    intro i c hc
    rcases hmem_new i c hc with ⟨h1, h2⟩ | ⟨h1, h2⟩
    · subst h1; subst h2
      exact ⟨lower_half B s.heap.length, hat_b, hloS, by simp [lower_half, hBfree]⟩
    · obtain ⟨C, hC, hCs, hCf⟩ := hw.mem i c h1
      refine ⟨C, ?_, hCs, hCf⟩
      rw [hat_old c (Nat.ne_of_lt (hlt_of_mem i c h1)) h2]
      exact hC
  · -- nodup
    intro i
    rw [hcl]
    by_cases e : i = k - 1
    · simp [e]
    · simpa [e] using hw.nodup i
  · -- held
    intro h hh
    cases hh
    exact ⟨hnew_out, upper_half B b, hat_new, by simp [upper_half]⟩
  · -- alloc
    intro c C hc hout hne
    rcases cases_of c C hc with ⟨c1, _⟩ | ⟨c1, _⟩ | ⟨c1, c2, c3⟩
    · exact absurd (by rw [c1]) hne
    · subst c1
      exfalso
      apply hout (k - 1)
      rw [hcl]; simp
    · apply hw.alloc c C c3
      · intro i hi; exact hout i (hmem_old i c hi)
      · intro e; cases e; exact c2 rfl
  · -- geom
    intro c C hc
    rw [hpoolE, htotE]
    rcases cases_of c C hc with ⟨_, c2⟩ | ⟨_, c2⟩ | ⟨_, _, c3⟩
    · subst c2
      refine ⟨⟨k - 1, by omega, hupS⟩, ?_, ?_⟩
      · rw [hupM]; omega
      · rw [hupM, hupS]; omega
    · subst c2
      refine ⟨⟨k - 1, by omega, hloS⟩, ?_, ?_⟩
      · rw [hloM]; omega
      · rw [hloM, hloS]; omega
    · exact hw.geom c C c3
  · -- disj
    have key : ∀ c C, c ≠ b → block_at s c = some C →
        B.memory + 2 ^ k ≤ C.memory ∨ C.memory + C.size ≤ B.memory := by
      intro c C hcb hC
      have := hw.disj b c B C (fun e => hcb e.symm) hB hC
      rw [hk] at this
      exact this
    intro c d C D hcd hC hD
    rcases cases_of c C hC with ⟨c1, c2⟩ | ⟨c1, c2⟩ | ⟨c1, c2, c3⟩ <;>
    rcases cases_of d D hD with ⟨d1, d2⟩ | ⟨d1, d2⟩ | ⟨d1, d2, d3⟩
    · exact absurd (c1.trans d1.symm) hcd
    · subst c2; subst d2; rw [hupM, hupS, hloM, hloS]; omega
    · subst c2
      have := key d D d2 d3
      rw [hupM, hupS]
      omega
    · subst c2; subst d2; rw [hupM, hupS, hloM, hloS]; omega
    · exact absurd (c1.trans d1.symm) hcd
    · subst c2
      have := key d D d2 d3
      rw [hloM, hloS]
      omega
    · subst d2
      have := key c C c2 c3
      rw [hupM, hupS]
      omega
    · subst d2
      have := key c C c2 c3
      rw [hloM, hloS]
      omega
    · exact hw.disj c d C D hcd c3 d3
  · -- bud
    intro c C d hc hd
    rcases cases_of c C hc with ⟨c1, c2⟩ | ⟨c1, c2⟩ | ⟨c1, c2, c3⟩
    · subst c2
      simp only [upper_half, Option.some.injEq] at hd
      subst hd
      refine ⟨lower_half B s.heap.length, hat_b, by rw [hloS, hupS], fun _ => ?_⟩
      left
      rw [c1]
      exact hnew_out
    · subst c2
      simp only [lower_half, Option.some.injEq] at hd
      subst hd
      exact ⟨upper_half B b, hat_new, by rw [hloS, hupS], fun _ => Or.inr hnew_out⟩
    · obtain ⟨D, hD, hle, himp⟩ := hw.bud c C d c3 hd
      have hdlt := block_at_lt s d D hD
      by_cases e3 : d = b
      · rw [e3] at hD
        rw [hB] at hD
        cases hD
        rw [e3]
        refine ⟨lower_half B s.heap.length, hat_b, ?_, ?_⟩
        · rw [hloS]; rw [hk] at hle; omega
        · intro e
          rw [hloS] at e
          rw [hk] at hle
          omega
      · refine ⟨D, by rw [hat_old d (Nat.ne_of_lt hdlt) e3]; exact hD, hle, ?_⟩
        intro e
        rcases himp e with h1 | h1
        · left
          intro i hi
          rcases hmem_new i _ hi with ⟨h2, _⟩ | ⟨h2, _⟩
          · exact c2 h2
          · exact h1 i h2
        · right
          intro i hi
          rcases hmem_new i _ hi with ⟨h2, _⟩ | ⟨h2, _⟩
          · exact e3 h2
          · exact h1 i h2
  · -- sum
    have h1 := heap_sum_set Block.size (lower_half B s.heap.length) B s.heap b hB
    have h2 := heap_sum_append Block.size (s.heap.set b (some (lower_half B s.heap.length)))
      (upper_half B b)
    have h3 := hw.sum
    rw [htotE]
    show heap_sum Block.size (s.heap.set b (some (lower_half B s.heap.length)) ++
      [some (upper_half B b)]) = s.total_size
    rw [h2, hupS]
    rw [hloS, hk] at h1
    omega

theorem split_loop_stop (fuel : Nat) (s : BuddyAllocator) (b : Nat) (B : Block) (a : Nat)
    (hB : block_at s b = some B) (hle : B.size ≤ a) :
    split_loop fuel s b a = .ok (b, s) := by
  have : ¬ B.size > a := by omega
  cases fuel <;> simp only [split_loop, deref_of_block_at s b B hB, this, if_false]

theorem split_loop_step (fuel : Nat) (s : BuddyAllocator) (b : Nat) (B : Block) (k t : Nat)
    (hlen : s.free_blocks.length = 32)
    (hB : block_at s b = some B) (hk : B.size = 2 ^ k) (htk : t < k) (hk31 : k ≤ 31)
    (hem : ∀ j, t ≤ j → j < k → cls s j = []) :
    split_loop (fuel + 1) s b (2 ^ t) =
      split_loop fuel (after_split s b B) s.heap.length (2 ^ t) := by
  obtain ⟨h1, h2⟩ := split_find_eq s b B k t hlen hB hk htk hk31 hem
  rw [split_loop]
  rw [deref_of_block_at s b B hB]
  have : B.size > 2 ^ t := by
    rw [hk]; exact Nat.pow_lt_pow_right (by norm_num) htk
  simp only [this, if_true, h1, h2]

theorem split_loop_spec (t : Nat) :
    ∀ d fuel s b B k, WF s (some b) → block_at s b = some B → B.size = 2 ^ k →
      t ≤ k → k ≤ 31 → k - t = d → d ≤ fuel → (∀ j, t ≤ j → j < k → cls s j = []) →
      ∃ bf sf Bf, split_loop fuel s b (2 ^ t) = .ok (bf, sf) ∧ SplitPost s b B k t bf sf Bf := by
  intro d
  induction d with
  | zero =>
    intro fuel s b B k hw hB hk htk hk31 hd hf hem
    have e : k = t := by omega
    subst e
    refine ⟨b, s, B, split_loop_stop fuel s b B _ hB (by rw [hk]), ?_⟩
    exact
      { wf := hw, at_bf := hB, size := hk, memory := rfl, used := rfl, total := rfl, pool := rfl
        outside := fun _ _ => rfl
        inside := fun j h1 h2 => by omega
        heap_len := by simp
        frame := fun _ _ _ => rfl
        fresh := Or.inl rfl
        acct := rfl
        same := fun _ => ⟨rfl, rfl⟩ }
  | succ d ih =>
    intro fuel s b B k hw hB hk htk hk31 hd hf hem
    obtain ⟨f, rfl⟩ : ∃ f, fuel = f + 1 := ⟨fuel - 1, by omega⟩
    have htk' : t < k := by omega
    have hb : b < s.heap.length := block_at_lt s b B hB
    rw [split_loop_step f s b B k t hw.len hB hk htk' hk31 hem]
    have hw2 := WF_after_split s b B k t hw hB hk htk' hk31 hem
    have hat := fun c => block_at_after_split s b B c hb
    have hcl := fun j => cls_after_split s b B k j hw.len hk (by omega) hk31
    have hhalf : B.size / 2 = 2 ^ (k - 1) := by rw [hk]; exact half_pow k (by omega)
    have hkk : 2 ^ k = 2 ^ (k - 1) + 2 ^ (k - 1) := by
      obtain ⟨j, rfl⟩ : ∃ j, k = j + 1 := ⟨k - 1, by omega⟩
      simp [pow_succ]; omega
    have hnew : block_at (after_split s b B) s.heap.length = some (upper_half B b) := by
      rw [hat]; simp
    have hem2 : ∀ j, t ≤ j → j < k - 1 → cls (after_split s b B) j = [] := by
      intro j h1 h2
      rw [hcl]
      have : ¬ j = k - 1 := by omega
      simp only [this, if_false]
      exact hem j h1 (by omega)
    obtain ⟨bf, sf, Bf, hrun, hp⟩ := ih f (after_split s b B) s.heap.length (upper_half B b)
      (k - 1) hw2 hnew (by simp [upper_half, hhalf]) (by omega) (by omega) (by omega)
      (by omega) hem2
    refine ⟨bf, sf, Bf, hrun, ?_⟩
    have hlen2 : (after_split s b B).heap.length = s.heap.length + 1 := by
      simp [after_split]
    exact
      { wf := hp.wf
        at_bf := hp.at_bf
        size := hp.size
        memory := by
          have := hp.memory
          simp only [upper_half, hhalf] at this
          omega
        used := hp.used
        total := hp.total
        pool := hp.pool
        outside := by
          intro j hj
          rw [hp.outside j (by omega), hcl]
          have : ¬ j = k - 1 := by omega
          simp only [this, if_false]
        inside := by
          intro j h1 h2
          by_cases e : j = k - 1
          · refine ⟨b, ?_⟩
            rw [hp.outside j (by omega), hcl]
            simp [e]
          · exact hp.inside j h1 (by omega)
        heap_len := by
          rw [hp.heap_len, hlen2]; omega
        frame := by
          intro c h1 h2
          rw [hp.frame c (by omega) (by omega), hat]
          have : ¬ c = s.heap.length := by omega
          simp only [this, h1, if_false]
        fresh := by
          rcases hp.fresh with h | h
          · right; omega
          · right; omega
        acct := by
          rw [hp.acct]
          obtain ⟨_, B0, hB0, hBfree⟩ := hw.held b rfl
          rw [hB] at hB0; cases hB0
          have h1 := heap_sum_set alloc_size (lower_half B s.heap.length) B s.heap b hB
          have h2 := heap_sum_append alloc_size
            (s.heap.set b (some (lower_half B s.heap.length))) (upper_half B b)
          show heap_sum alloc_size (s.heap.set b (some (lower_half B s.heap.length)) ++
            [some (upper_half B b)]) = _
          rw [h2]
          simp only [alloc_size, lower_half, upper_half, hBfree, if_true] at h1 ⊢
          omega
        same := fun e => by omega }

theorem block_at_hand_out (sf : BuddyAllocator) (bf : Nat) (Bf : Block) (c : Nat)
    (hb : bf < sf.heap.length) :
    block_at (hand_out sf bf Bf) c =
      if c = bf then some { Bf with free := false } else block_at sf c := by
  unfold block_at hand_out
  simp only
  rw [join_get_set _ _ _ _ hb]

theorem WF_hand_out (sf : BuddyAllocator) (bf : Nat) (Bf : Block)
    (hw : WF sf (some bf)) (hB : block_at sf bf = some Bf) :
    WF (hand_out sf bf Bf) none := by
  have hb : bf < sf.heap.length := block_at_lt sf bf Bf hB
  have hat := fun c => block_at_hand_out sf bf Bf c hb
  have hat_b : block_at (hand_out sf bf Bf) bf = some { Bf with free := false } := by
    rw [hat]; simp
  have hat_old : ∀ c, c ≠ bf → block_at (hand_out sf bf Bf) c = block_at sf c := by
    intro c h; rw [hat]; simp [h]
  have hcl : ∀ j, cls (hand_out sf bf Bf) j = cls sf j := fun _ => rfl
  obtain ⟨hbout, B0, hB0, hBfree⟩ := hw.held bf rfl
  have cases_of : ∀ c C, block_at (hand_out sf bf Bf) c = some C →
      ∃ C0, block_at sf c = some C0 ∧ C.size = C0.size ∧ C.memory = C0.memory ∧
        C.buddy = C0.buddy ∧ (c ≠ bf → C = C0) ∧ (c = bf → C.free = false) := by
    intro c C hc
    by_cases e : c = bf
    · subst e
      rw [hat_b] at hc
      have := (Option.some.inj hc).symm
      subst this
      exact ⟨Bf, hB, rfl, rfl, rfl, fun h => absurd rfl h, fun _ => rfl⟩
    · rw [hat_old c e] at hc
      exact ⟨C, hc, rfl, rfl, rfl, fun _ => rfl, fun h => absurd h e⟩
  refine
    { len := hw.len
      tot := hw.tot
      pool := hw.pool
      live := ?_
      mem := ?_
      nodup := hw.nodup
      held := fun h hh => by cases hh
      alloc := ?_
      geom := ?_
      disj := ?_
      bud := ?_
      sum := ?_ }
  · intro c hc
    by_cases e : c = bf
    · subst e; exact ⟨_, hat_b⟩
    · rw [hat_old c e]
      apply hw.live
      simpa [hand_out] using hc
  · intro i c hc
    have hne : c ≠ bf := fun e => hbout i (e ▸ hc)
    rw [hat_old c hne]
    exact hw.mem i c hc
  · intro c C hc hout _
    obtain ⟨C0, h0, _, _, _, h4, h5⟩ := cases_of c C hc
    by_cases e : c = bf
    · exact h5 e
    · rw [h4 e]
      apply hw.alloc c C0 h0 hout
      intro e'; cases e'; exact e rfl
  · intro c C hc
    obtain ⟨C0, h0, h1, h2, _⟩ := cases_of c C hc
    rw [h1, h2]
    exact hw.geom c C0 h0
  · intro c d C D hcd hC hD
    obtain ⟨C0, c0, c1, c2, _⟩ := cases_of c C hC
    obtain ⟨D0, d0, d1, d2, _⟩ := cases_of d D hD
    rw [c1, c2, d1, d2]
    exact hw.disj c d C0 D0 hcd c0 d0
  · intro c C d hc hd
    obtain ⟨C0, c0, c1, _, c3, _⟩ := cases_of c C hc
    rw [c3] at hd
    obtain ⟨D0, hD0, hle, himp⟩ := hw.bud c C0 d c0 hd
    by_cases e : d = bf
    · subst e
      rw [hB] at hD0; cases hD0
      exact ⟨_, hat_b, by rw [c1]; exact hle, fun h => himp (by rw [← c1]; exact h)⟩
    · exact ⟨D0, by rw [hat_old d e]; exact hD0, by rw [c1]; exact hle,
        fun h => himp (by rw [← c1]; exact h)⟩
  · have h1 := heap_sum_set Block.size { Bf with free := false } Bf sf.heap bf hB
    have := hw.sum
    show heap_sum Block.size (sf.heap.set bf (some { Bf with free := false })) = sf.total_size
    simp only at h1
    omega

theorem acct_hand_out (sf : BuddyAllocator) (bf : Nat) (Bf : Block)
    (hB : block_at sf bf = some Bf) (hfree : Bf.free = true) :
    heap_sum alloc_size (hand_out sf bf Bf).heap = heap_sum alloc_size sf.heap + Bf.size := by
  have h1 := heap_sum_set alloc_size { Bf with free := false } Bf sf.heap bf hB
  show heap_sum alloc_size (sf.heap.set bf (some { Bf with free := false })) = _
  simp only [alloc_size, hfree, if_true] at h1
  simp at h1
  omega

theorem allocate_none (s : BuddyAllocator) (n a t : Nat) (hn : n ≠ 0)
    (ha : get_next_power_of_two n = .ok a) (hat : a = 2 ^ t) (ht : t ≤ 31)
    (hem : ∀ j, t ≤ j → j ≤ 31 → cls s j = []) :
    allocate s n = .ok (0, s) := by
  unfold allocate
  simp only [hn, if_false, ha]
  rw [hat, find_best_none s t ht hem]

theorem allocate_some (s : BuddyAllocator) (n a t m : Nat) (hw : WF s none) (hn : n ≠ 0)
    (ha : get_next_power_of_two n = .ok a) (hat : a = 2 ^ t) (htm : t ≤ m) (hm : m ≤ 31)
    (hne : cls s m ≠ []) (hem : ∀ j, t ≤ j → j < m → cls s j = []) :
    ∃ x B p s1, allocate s n = .ok (p, s1) ∧ AllocPost s t m x B p s1 := by
  obtain ⟨x, B, hx, hsplit, hB, hBs, hw1⟩ := WF_take_back s m hw hm hne
  have hcl1 := fun j => cls_take_back s m j hw.len hm
  have hem1 : ∀ j, t ≤ j → j < m → cls (take_back s m).2 j = [] := by
    intro j h1 h2
    rw [hcl1]
    have : ¬ j = m := by omega
    simp only [this, if_false]
    exact hem j h1 h2
  have hB1 : block_at (take_back s m).2 x = some B := hB
  obtain ⟨bf, sf, Bf, hrun, hp⟩ := split_loop_spec t (m - t) 32 (take_back s m).2 x B m hw1 hB1
    hBs htm hm rfl (by omega) hem1
  have hfind : find_best_block s (2 ^ t) = .ok (some x, (take_back s m).2) := by
    rw [find_best_first s t m htm hm hne hem]
    have : take_back s m = ((take_back s m).1, (take_back s m).2) := rfl
    rw [this, hx]
  have hfree : Bf.free = true := by
    obtain ⟨_, B0, hB0, hf⟩ := hp.wf.held bf rfl
    rw [hp.at_bf] at hB0; cases hB0; exact hf
  have hgeo := hp.wf.geom bf Bf hp.at_bf
  have hpoolpos := hp.wf.pool
  have hbf : bf < sf.heap.length := block_at_lt sf bf Bf hp.at_bf
  refine ⟨x, B, Bf.memory, hand_out sf bf Bf, ?_, ?_⟩
  · unfold allocate
    simp only [hn, if_false, ha]
    rw [hat, hfind]
    simp only [hrun, deref_of_block_at sf bf Bf hp.at_bf]
    rfl
  · have hlen1 : (take_back s m).2.heap.length = s.heap.length := rfl
    exact
      { last := hsplit
        donor := hB
        donor_size := hBs
        ptr := hp.memory
        ptr_pos := by omega
        wf := WF_hand_out sf bf Bf hp.wf hp.at_bf
        used := by
          show (sf.used_memory + Bf.size) % SIZE_MOD = _
          rw [hp.used, hp.size]; rfl
        total := hp.total
        pool := hp.pool
        at_m := by
          show cls sf m = _
          rw [hp.outside m (by omega), hcl1]; simp
        outside := by
          intro j hj
          show cls sf j = _
          rw [hp.outside j (by omega), hcl1]
          have : ¬ j = m := by omega
          simp only [this, if_false]
        inside := fun j h1 h2 => hp.inside j h1 h2
        heap_len := by
          show (sf.heap.set bf _).length = _
          rw [List.length_set, hp.heap_len]; rfl
        frame := by
          intro c h1 h2
          rw [block_at_hand_out sf bf Bf c hbf]
          have h3 := hp.frame c h1 (by rw [hlen1]; exact h2)
          by_cases e : c = bf
          · exfalso
            rcases hp.fresh with h | h
            · exact h1 (e.trans h)
            · rw [hlen1] at h; omega
          · simp only [e, if_false]; exact h3
        block := by
          refine ⟨bf, { Bf with free := false }, ?_, rfl, rfl, hp.size, hp.fresh⟩
          rw [block_at_hand_out sf bf Bf bf hbf]; simp
        acct := by
          rw [acct_hand_out sf bf Bf hp.at_bf hfree, hp.acct, hp.size]; rfl
        same := by
          intro e
          subst e
          obtain ⟨_, h2⟩ := hp.same rfl
          show sf.free_blocks = _
          rw [h2]; rfl }

theorem WF_used (s : BuddyAllocator) (u : Nat) (hw : WF s none) :
    WF { s with used_memory := u } none :=
  { len := hw.len, tot := hw.tot, pool := hw.pool, live := hw.live, mem := hw.mem,
    nodup := hw.nodup, held := hw.held, alloc := hw.alloc, geom := hw.geom, disj := hw.disj,
    bud := hw.bud, sum := hw.sum }

theorem set_same {α : Type} : ∀ (l : List α) (i : Nat) (a : α), l[i]? = some a → l.set i a = l := by
  intro l
  induction l with
  | nil => intro i a h; simp at h
  | cons x l ih =>
    intro i a h
    cases i with
    | zero => simp at h; simp [h]
    | succ i => simp at h; simp [ih i a h]

theorem heap_at_of_block_at (s : BuddyAllocator) (b : Nat) (B : Block)
    (h : block_at s b = some B) : s.heap[b]? = some (some B) := by
  unfold block_at at h
  cases hq : s.heap[b]? with
  | none => simp [hq] at h
  | some o =>
    cases o with
    | none => simp [hq] at h
    | some X => simp [hq] at h; simp [h]

theorem block_at_of_deref (s : BuddyAllocator) (b : Nat) (B : Block)
    (h : deref s.heap b = .ok B) : block_at s b = some B := by
  unfold deref at h
  unfold block_at
  cases hq : s.heap[b]? with
  | none => simp [hq] at h
  | some o =>
    cases o with
    | none => simp [hq] at h
    | some X =>
      simp only [hq] at h
      cases h
      rfl

theorem cls_nonempty_lt (s : BuddyAllocator) (i x : Nat) (h : x ∈ cls s i) :
    i < s.free_blocks.length := by
  by_contra hc
  unfold cls at h
  rw [List.getD_eq_default _ _ (by omega)] at h
  simp at h

theorem merge_once_noop (s : BuddyAllocator) (x i : Nat) (hw : WF s none) (hx : x ∈ cls s i) :
    merge_once s x = .ok (s, none) := by
  obtain ⟨B, hB, hBs, hBf⟩ := hw.mem i x hx
  have hi : i ≤ 31 := by
    have := cls_nonempty_lt s i x hx
    have := hw.len
    omega
  unfold merge_once get_buddy
  simp only [deref_of_block_at s x B hB]
  by_cases e1 : B.size = s.total_size
  · simp [e1]
  · simp only [e1, if_false]
    by_cases e2 : B.memory + B.size + B.size > s.memory_pool + s.total_size
    · simp [e2]
    · simp only [e2, if_false]
      cases hd : B.buddy with
      | none => rfl
      | some d =>
        obtain ⟨D, hD, hle, himp⟩ := hw.bud x B d hB hd
        simp only [deref_of_block_at s d D hD]
        by_cases e3 : D.free = true
        · simp only [e3, Bool.not_true, Bool.false_eq_true, if_false]
          rw [hBs, get_index_for_size_pow i (by omega)]
          have : ¬ 32 ≤ i := by omega
          simp only [this, if_false]
          have hdn : d ∉ s.free_blocks.getD i [] := by
            intro hc
            obtain ⟨D', hD', hDs', _⟩ := hw.mem i d hc
            rw [hD] at hD'; cases hD'
            rcases himp (by rw [hDs', hBs]) with h | h
            · exact h i hx
            · exact h i hc
          have hidx : List.indexOf d (s.free_blocks.getD i []) =
              (s.free_blocks.getD i []).length := List.indexOf_eq_length.mpr hdn
          rw [if_pos (Or.inr hidx)]
        · simp [e3]

theorem merge_buddies_noop (fuel : Nat) (s : BuddyAllocator) (x i : Nat) (hw : WF s none)
    (hx : x ∈ cls s i) : merge_buddies fuel s (some x) = .ok s := by
  cases fuel <;> simp only [merge_buddies, merge_once_noop s x i hw hx]

theorem find_in_list_some (h : List (Option Block)) (ptr : Nat) :
    ∀ (l : List Nat) (x : Nat), find_in_list h ptr l = .ok (some x) →
      x ∈ l ∧ ∃ B, deref h x = .ok B ∧ B.memory ≤ ptr ∧ ptr < B.memory + B.size := by
  intro l
  induction l with
  | nil => intro x hx; simp [find_in_list] at hx
  | cons y l ih =>
    intro x hx
    unfold find_in_list at hx
    cases hd : deref h y with
    | error e => simp [hd] at hx
    | ok B =>
      simp only [hd] at hx
      by_cases e : B.memory ≤ ptr ∧ B.memory + B.size > ptr
      · simp only [e, and_self, if_true] at hx
        cases hx
        exact ⟨by simp, B, hd, e.1, e.2⟩
      · rw [if_neg e] at hx
        obtain ⟨h1, h2⟩ := ih x hx
        exact ⟨List.mem_cons_of_mem _ h1, h2⟩

theorem find_block_some (h : List (Option Block)) (ptr : Nat) :
    ∀ (ls : List (List Nat)) (x : Nat), find_block h ptr ls = .ok (some x) →
      ∃ l, l ∈ ls ∧ x ∈ l ∧ ∃ B, deref h x = .ok B ∧ B.memory ≤ ptr ∧ ptr < B.memory + B.size := by
  intro ls
  induction ls with
  | nil => intro x hx; simp [find_block] at hx
  | cons l ls ih =>
    intro x hx
    unfold find_block at hx
    cases hd : find_in_list h ptr l with
    | error e => simp [hd] at hx
    | ok o =>
      cases o with
      | none =>
        simp only [hd] at hx
        obtain ⟨l', h1, h2⟩ := ih x hx
        exact ⟨l', List.mem_cons_of_mem _ h1, h2⟩
      | some y =>
        simp only [hd] at hx
        cases hx
        obtain ⟨h1, h2⟩ := find_in_list_some h ptr l x hd
        exact ⟨l, by simp, h1, h2⟩

theorem mem_cls_of_mem (s : BuddyAllocator) (l : List Nat) (x : Nat) (hl : l ∈ s.free_blocks)
    (hx : x ∈ l) : ∃ i, x ∈ cls s i := by
  obtain ⟨i, hi, e⟩ := List.mem_iff_getElem.mp hl
  refine ⟨i, ?_⟩
  unfold cls
  rw [List.getD_eq_getElem _ _ hi, e]
  exact hx

/-- On a well-formed state a `deallocate` that returns changes nothing but the counter: it
found a free-listed block whose range holds `ptr` and subtracted its size. -/
theorem deallocate_ok (s s1 : BuddyAllocator) (ptr : Nat) (hw : WF s none)
    (h : deallocate s ptr = .ok s1) :
    s1 = s ∨ ∃ x i B, x ∈ cls s i ∧ block_at s x = some B ∧ B.memory ≤ ptr ∧
      ptr < B.memory + B.size ∧
      s1 = { s with used_memory := (s.used_memory + SIZE_MOD - B.size) % SIZE_MOD } := by
  unfold deallocate at h
  by_cases e : ptr = 0
  · simp only [e, if_true] at h
    cases h
    exact Or.inl rfl
  · simp only [e, if_false] at h
    cases hf : find_block s.heap ptr s.free_blocks with
    | error err => simp [hf] at h
    | ok o =>
      cases o with
      | none => simp [hf] at h
      | some x =>
        simp only [hf] at h
        obtain ⟨l, hl, hxl, B, hB, h1, h2⟩ := find_block_some s.heap ptr s.free_blocks x hf
        obtain ⟨i, hxi⟩ := mem_cls_of_mem s l x hl hxl
        have hBat := block_at_of_deref s x B hB
        obtain ⟨B', hB', _, hBf⟩ := hw.mem i x hxi
        rw [hBat] at hB'; cases hB'
        simp only [hB] at h
        have hBB : ({ B with free := true } : Block) = B := by
          cases B; simp at hBf; simp [hBf]
        rw [hBB, set_same s.heap x (some B) (heap_at_of_block_at s x B hBat)] at h
        have hw' := WF_used s ((s.used_memory + SIZE_MOD - B.size) % SIZE_MOD) hw
        rw [merge_buddies_noop 32 _ x i hw' hxi] at h
        cases h
        exact Or.inr ⟨x, i, B, hxi, hBat, h1, h2, rfl⟩

theorem WF_deallocate (s s1 : BuddyAllocator) (ptr : Nat) (hw : WF s none)
    (h : deallocate s ptr = .ok s1) : WF s1 none := by
  rcases deallocate_ok s s1 ptr hw h with e | ⟨x, i, B, _, _, _, _, e⟩
  · rw [e]; exact hw
  · rw [e]; exact WF_used s _ hw

theorem pow2_loop_pow (size r : Nat) (h : pow2_loop 64 1 size = some r) :
    ∃ K, K ≤ 63 ∧ r = 2 ^ K ∧ size ≤ 2 ^ K := by
  by_cases hs : size = 0
  · subst hs
    rw [pow2_loop_zero] at h
    cases h
    exact ⟨0, by omega, rfl, by simp⟩
  · have h1 : pow2_loop 64 (2 ^ 0 % SIZE_MOD) size = some r := by simpa [SIZE_MOD] using h
    obtain ⟨K, _, h2, h3, h4⟩ := pow2_loop_spec size (by omega) 64 0 r (by omega) h1
    exact ⟨K, h2, h3, h4⟩

theorem construct_spec (size pool : Nat) (s : BuddyAllocator) (h : construct size pool = .ok s) :
    ∃ K, K ≤ 31 ∧ 0 < pool ∧ size ≤ 2 ^ K ∧ s = fresh K pool := by
  unfold construct at h
  cases hp : pow2_loop 64 1 size with
  | none => simp [hp] at h
  | some r =>
    simp only [hp] at h
    obtain ⟨K, hK, hr, hsz⟩ := pow2_loop_pow size r hp
    subst hr
    by_cases e : pool = 0
    · simp [e] at h
    · simp only [e, if_false] at h
      rw [get_index_for_size_pow K (by omega)] at h
      by_cases e2 : 32 ≤ K
      · simp [e2] at h
      · simp only [e2, if_false] at h
        cases h
        exact ⟨K, by omega, by omega, hsz, rfl⟩

theorem getD_replicate_nil (n j : Nat) :
    (List.replicate n ([] : List Nat)).getD j [] = [] := by
  by_cases h : j < n
  · rw [List.getD_eq_getElem _ _ (by simpa using h)]
    simp
  · rw [List.getD_eq_default _ _ (by simp; omega)]

theorem cls_fresh (K pool j : Nat) (hK : K ≤ 31) :
    cls (fresh K pool) j = if j = K then [0] else [] := by
  unfold cls fresh
  simp only
  rw [getD_set_list _ _ _ _ _ (by simp; omega)]
  by_cases e : j = K
  · simp [e]
  · simp only [e, if_false]
    exact getD_replicate_nil 32 j

theorem block_at_fresh (K pool c : Nat) :
    block_at (fresh K pool) c = if c = 0 then some (Block.mk_new (2 ^ K) pool) else none := by
  unfold block_at fresh
  cases c with
  | zero => simp
  | succ c => simp

theorem WF_fresh (K pool : Nat) (hK : K ≤ 31) (hp : 0 < pool) : WF (fresh K pool) none := by
  have hcl := fun j => cls_fresh K pool j hK
  have hat := fun c => block_at_fresh K pool c
  have cases_of : ∀ c C, block_at (fresh K pool) c = some C →
      c = 0 ∧ C = Block.mk_new (2 ^ K) pool := by
    intro c C hc
    rw [hat] at hc
    by_cases e : c = 0
    · simp only [e, if_true, Option.some.injEq] at hc
      exact ⟨e, hc.symm⟩
    · simp [e] at hc
  have hmem : ∀ i c, c ∈ cls (fresh K pool) i → c = 0 ∧ i = K := by
    intro i c hc
    rw [hcl] at hc
    by_cases e : i = K
    · simp [e] at hc; exact ⟨hc, e⟩
    · simp [e] at hc
  refine
    { len := by simp [fresh]
      tot := ⟨K, hK, rfl⟩
      pool := hp
      live := ?_
      mem := ?_
      nodup := ?_
      held := fun h hh => by cases hh
      alloc := ?_
      geom := ?_
      disj := ?_
      bud := ?_
      sum := by simp [fresh, heap_sum, Block.mk_new] }
  · intro c hc
    simp [fresh] at hc
    subst hc
    exact ⟨Block.mk_new (2 ^ K) pool, by rw [hat]; simp⟩
  · intro i c hc
    obtain ⟨h1, h2⟩ := hmem i c hc
    subst h1; subst h2
    exact ⟨Block.mk_new (2 ^ i) pool, by rw [hat]; simp, rfl, rfl⟩
  · intro i
    rw [hcl]
    by_cases e : i = K <;> simp [e]
  · intro c C hc hout _
    obtain ⟨h1, _⟩ := cases_of c C hc
    subst h1
    exfalso
    apply hout K
    rw [hcl]; simp
  · intro c C hc
    obtain ⟨_, h2⟩ := cases_of c C hc
    subst h2
    exact ⟨⟨K, hK, rfl⟩, le_refl _, le_refl _⟩
  · intro c d C D hcd hC hD
    obtain ⟨h1, _⟩ := cases_of c C hC
    obtain ⟨h2, _⟩ := cases_of d D hD
    exact absurd (h1.trans h2.symm) hcd
  · intro c C d hc hd
    obtain ⟨_, h2⟩ := cases_of c C hc
    subst h2
    simp [Block.mk_new] at hd

theorem Acct_fresh (K pool : Nat) : Acct (fresh K pool) := by
  simp [Acct, fresh, heap_sum, alloc_size, Block.mk_new]

/-- The outcome of `allocate` on a well-formed state for a request of class `t ≤ 31`. -/
theorem allocate_cases (s : BuddyAllocator) (n a t : Nat) (hw : WF s none) (hn : n ≠ 0)
    (ha : get_next_power_of_two n = .ok a) (hat : a = 2 ^ t) (ht : t ≤ 31) :
    ((∀ j, t ≤ j → j ≤ 31 → cls s j = []) ∧ allocate s n = .ok (0, s)) ∨
    ∃ m x B p s1, t ≤ m ∧ m ≤ 31 ∧ cls s m ≠ [] ∧ (∀ j, t ≤ j → j < m → cls s j = []) ∧
      allocate s n = .ok (p, s1) ∧ AllocPost s t m x B p s1 := by
  rcases first_class s t ht with h | ⟨m, h1, h2, h3, h4⟩
  · exact Or.inl ⟨h, allocate_none s n a t hn ha hat ht h⟩
  · obtain ⟨x, B, p, s1, h5, h6⟩ := allocate_some s n a t m hw hn ha hat h1 h2 h3 h4
    exact Or.inr ⟨m, x, B, p, s1, h1, h2, h3, h4, h5, h6⟩

/-- A call of `allocate` that returns was either the request of size 0, or a request whose
class is at most 31. -/
theorem allocate_ok_class (s s1 : BuddyAllocator) (n p : Nat)
    (h : allocate s n = .ok (p, s1)) :
    n = 0 ∨ ∃ a t, get_next_power_of_two n = .ok a ∧ a = 2 ^ t ∧ t ≤ 31 ∧ n ≤ a := by
  by_cases hn : n = 0
  · exact Or.inl hn
  · right
    unfold allocate at h
    simp only [hn, if_false] at h
    cases ha : get_next_power_of_two n with
    | error e => simp [ha] at h
    | ok a =>
      obtain ⟨t, ht, hat, hle⟩ := get_next_power_of_two_spec n a ha
      refine ⟨a, t, rfl, hat, ?_, by rw [hat]; exact hle⟩
      simp only [ha] at h
      by_contra hc
      have : find_best_block s a = .error .undefined_behaviour := by
        unfold find_best_block
        rw [hat, get_index_for_size_pow t (by omega)]
        have : 32 ≤ t := by omega
        simp [this]
      simp [this] at h

theorem WF_allocate (s s1 : BuddyAllocator) (n p : Nat) (hw : WF s none)
    (h : allocate s n = .ok (p, s1)) : WF s1 none := by
  rcases allocate_ok_class s s1 n p h with hn | ⟨a, t, ha, hat, ht, _⟩
  · subst hn
    simp [allocate] at h
    rw [← h.2]; exact hw
  · by_cases hn : n = 0
    · subst hn
      simp [allocate] at h
      rw [← h.2]; exact hw
    · rcases allocate_cases s n a t hw hn ha hat ht with ⟨_, h1⟩ | ⟨m, x, B, p1, s2, _, _, _, _, h1, hp⟩
      · rw [h1] at h
        cases h
        exact hw
      · rw [h1] at h
        cases h
        exact hp.wf

theorem WF_of_construct (size pool : Nat) (s : BuddyAllocator)
    (h : construct size pool = .ok s) : WF s none := by
  obtain ⟨K, hK, hp, _, rfl⟩ := construct_spec size pool s h
  exact WF_fresh K pool hK hp

theorem Reachable.wf (s : BuddyAllocator) (h : Reachable s) : WF s none := by
  induction h with
  | construct size pool s h => exact WF_of_construct size pool s h
  | allocate s s1 n p _ h ih => exact WF_allocate s s1 n p ih h
  | deallocate s s1 p _ h ih => exact WF_deallocate s s1 p ih h

theorem ReachableByAlloc.reachable (s : BuddyAllocator) (h : ReachableByAlloc s) :
    Reachable s := by
  induction h with
  | construct size pool s h => exact Reachable.construct size pool s h
  | allocate s s1 n p _ h ih => exact Reachable.allocate s s1 n p ih h

theorem heap_sum_le (f g : Block → Nat) (hfg : ∀ b, f b ≤ g b) :
    ∀ h : List (Option Block), heap_sum f h ≤ heap_sum g h := by
  intro h
  induction h with
  | nil => simp [heap_sum]
  | cons o h ih =>
    simp only [heap_sum, List.map_cons, List.sum_cons] at ih ⊢
    cases o with
    | none => simpa using ih
    | some b => have := hfg b; simp only; omega

theorem alloc_le_total (s : BuddyAllocator) (hw : WF s none) :
    heap_sum alloc_size s.heap ≤ s.total_size := by
  rw [← hw.sum]
  apply heap_sum_le
  intro b
  unfold alloc_size
  split <;> omega

theorem Acct_allocate (s s1 : BuddyAllocator) (n p : Nat) (hw : WF s none) (hacc : Acct s)
    (h : allocate s n = .ok (p, s1)) : Acct s1 := by
  by_cases hn : n = 0
  · subst hn
    simp [allocate] at h
    rw [← h.2]; exact hacc
  · rcases allocate_ok_class s s1 n p h with hn0 | ⟨a, t, ha, hat, ht, _⟩
    · exact absurd hn0 hn
    · rcases allocate_cases s n a t hw hn ha hat ht with ⟨_, h1⟩ | ⟨m, x, B, p1, s2, _, _, _, _, h1, hp⟩
      · rw [h1] at h
        cases h
        exact hacc
      · rw [h1] at h
        cases h
        unfold Acct at hacc ⊢
        have hle := alloc_le_total s1 hp.wf
        have htot := hp.total
        obtain ⟨K, hK, hKe⟩ := hw.tot
        have hlt : (2:Nat) ^ K < 2 ^ 64 := Nat.pow_lt_pow_right (by norm_num) (by omega)
        rw [hp.used, hp.acct, hacc]
        apply Nat.mod_eq_of_lt
        rw [hp.acct, htot, hKe] at hle
        unfold SIZE_MOD
        omega

theorem ReachableByAlloc.acct (s : BuddyAllocator) (h : ReachableByAlloc s) : Acct s := by
  induction h with
  | construct size pool s h =>
    obtain ⟨K, _, _, _, rfl⟩ := construct_spec size pool s h
    exact Acct_fresh K pool
  | allocate s s1 n p hr h ih =>
    exact Acct_allocate s s1 n p (Reachable.wf s (ReachableByAlloc.reachable s hr)) ih h

theorem run_allocs_spec : ∀ (ns : List Nat) (s : BuddyAllocator), WF s none →
    (run_allocs s ns).Pairwise ranges_apart ∧ ∀ r ∈ run_allocs s ns, range_clear s r := by
  intro ns
  induction ns with
  | nil => intro s _; simp [run_allocs]
  | cons n ns ih =>
    intro s hw
    unfold run_allocs
    cases hal : allocate s n with
    | error e => simp
    | ok r =>
      obtain ⟨p, s1⟩ := r
      simp only
      have hw1 := WF_allocate s s1 n p hw hal
      by_cases hn : n = 0
      · subst hn
        simp [allocate] at hal
        obtain ⟨h1, h2⟩ := hal
        subst h1; subst h2
        simpa using ih s hw
      · rcases allocate_ok_class s s1 n p hal with hn0 | ⟨a, t, ha, hat, ht, _⟩
        · exact absurd hn0 hn
        · rcases allocate_cases s n a t hw hn ha hat ht with
            ⟨_, h1⟩ | ⟨m, x, B, p1, s2, _, _, hne, _, h1, hp⟩
          · rw [h1] at hal
            cases hal
            simpa using ih s hw
          · rw [h1] at hal
            cases hal
            subst hat
            have hp0 : ¬ p = 0 := hp.ptr_pos
            simp only [hp0, if_false]
            obtain ⟨ih1, ih2⟩ := ih s1 hw1
            obtain ⟨bf, Bf, hbf, hbfree, hbmem, hbsize, hbfresh⟩ := hp.block
            -- the donor is free in `s`
            have hxfree : B.free = true := by
              have hx : x ∈ cls s m := by rw [hp.last]; simp
              obtain ⟨B', hB', _, hf⟩ := hw.mem m x hx
              rw [hp.donor] at hB'; cases hB'; exact hf
            -- allocated blocks of `s` stay as they are
            have hkeep : ∀ c C, block_at s c = some C → C.free = false →
                block_at s1 c = some C ∧ c ≠ bf := by
              intro c C hC hCf
              have hcx : c ≠ x := by
                intro e; subst e
                rw [hp.donor] at hC; cases hC
                rw [hxfree] at hCf; cases hCf
              have hclt := block_at_lt s c C hC
              refine ⟨by rw [hp.frame c hcx hclt]; exact hC, ?_⟩
              rcases hbfresh with h | h
              · rw [h]; exact hcx
              · omega
            have hgeo := hw1.geom bf Bf hbf
            rw [hbmem, hbsize, hp.pool, hp.total] at hgeo
            constructor
            · rw [List.pairwise_cons]
              refine ⟨?_, ih1⟩
              intro r hr a1 a2 e1 e2
              obtain ⟨a', ha', _, _, hclear⟩ := ih2 r hr
              simp only at e1
              rw [ha] at e1; cases e1
              rw [ha'] at e2; cases e2
              have := hclear bf Bf hbf hbfree
              rw [hbmem, hbsize] at this
              simp only
              omega
            · intro r hr
              rw [List.mem_cons] at hr
              rcases hr with e | hr
              · subst e
                refine ⟨2 ^ t, ha, hgeo.2.1, hgeo.2.2, ?_⟩
                intro c C hC hCf
                obtain ⟨k1, k2⟩ := hkeep c C hC hCf
                have := hw1.disj c bf C Bf k2 k1 hbf
                rw [hbmem, hbsize] at this
                simp only
                omega
              · obtain ⟨a', ha', g1, g2, hclear⟩ := ih2 r hr
                rw [hp.pool] at g1
                rw [hp.pool, hp.total] at g2
                refine ⟨a', ha', g1, g2, ?_⟩
                intro c C hC hCf
                exact hclear c C (hkeep c C hC hCf).1 hCf

/-- C2 (the code departs from it): after `construct(128)` and `p = allocate(64)`, the call
`deallocate(p)` throws, and `used_memory` stays at 64. -/
theorem C2_deallocate_of_live_address_throws :
    construct 128 1000 = .ok (fresh 7 1000) ∧
    (allocate (fresh 7 1000) 64).map Prod.fst = .ok 1064 ∧
    deallocate (state_after_allocate (fresh 7 1000) 64) 1064 = .error .runtime_error ∧
    get_used_memory (state_after_allocate (fresh 7 1000) 64) = 64 :=
  ⟨rfl, rfl, rfl, rfl⟩

/-- C3 (the code departs from it): after `construct(128)` and `p = allocate(128)`, the call
`deallocate(p)` throws; the state keeps `used_memory = 128` and an empty free-list table, it
is not the freshly constructed state. -/
theorem C3_round_trip_throws :
    construct 128 1000 = .ok (fresh 7 1000) ∧
    (allocate (fresh 7 1000) 128).map Prod.fst = .ok 1000 ∧
    deallocate (state_after_allocate (fresh 7 1000) 128) 1000 = .error .runtime_error ∧
    get_used_memory (state_after_allocate (fresh 7 1000) 128) = 128 ∧
    (state_after_allocate (fresh 7 1000) 128).free_blocks = List.replicate 32 [] ∧
    state_after_allocate (fresh 7 1000) 128 ≠ fresh 7 1000 :=
  ⟨rfl, rfl, rfl, rfl, rfl, by decide⟩

/-- C4 (the code departs from it): after `construct(128)` and `allocate(64)`, which returns
`base + 64`, the call `deallocate(base + 0)` on an address that was never returned does not
throw, and it lowers `used_memory` from 64 to 0. -/
theorem C4_deallocate_of_free_address_returns :
    (allocate (fresh 7 1000) 64).map Prod.fst = .ok 1064 ∧
    (deallocate (state_after_allocate (fresh 7 1000) 64) 1000).map get_used_memory = .ok 0 ∧
    get_used_memory (state_after_allocate (fresh 7 1000) 64) = 64 :=
  ⟨rfl, rfl, rfl⟩

/-- C6 (the code departs from it): after `construct(128)`, `allocate(64)` and
`deallocate(base + 0)`, a reachable state, `used_memory` is 0 while the allocated block of 64
bytes is still allocated. -/
theorem C6_used_memory_disagrees :
    Reachable (state_after_deallocate (state_after_allocate (fresh 7 1000) 64) 1000) ∧
    get_used_memory (state_after_deallocate (state_after_allocate (fresh 7 1000) 64) 1000) = 0 ∧
    heap_sum alloc_size
      (state_after_deallocate (state_after_allocate (fresh 7 1000) 64) 1000).heap = 64 :=
  ⟨Reachable.deallocate (state_after_allocate (fresh 7 1000) 64) _ 1000
      (Reachable.allocate (fresh 7 1000) _ 64 1064 (Reachable.construct 128 1000 _ rfl) rfl) rfl,
    rfl, rfl⟩

/-- C7 (the code departs from it): after `construct(100)`, `a = allocate(40)` and
`b = allocate(10)`, both `deallocate(a)` and `deallocate(b)` throw: whichever is called first,
`used_memory` stays at 80 and no block returns to the free lists. -/
theorem C7_no_coalescing_after_frees :
    construct 100 1000 = .ok (fresh 7 1000) ∧
    (allocate (fresh 7 1000) 40).map Prod.fst = .ok 1064 ∧
    (allocate (state_after_allocate (fresh 7 1000) 40) 10).map Prod.fst = .ok 1048 ∧
    deallocate (state_after_allocate (state_after_allocate (fresh 7 1000) 40) 10) 1064 =
      .error .runtime_error ∧
    deallocate (state_after_allocate (state_after_allocate (fresh 7 1000) 40) 10) 1048 =
      .error .runtime_error ∧
    get_used_memory (state_after_allocate (state_after_allocate (fresh 7 1000) 40) 10) = 80 :=
  ⟨rfl, rfl, rfl, rfl, rfl, rfl⟩

theorem class_of_adjusted (n a : Nat) (ha : get_next_power_of_two n = .ok a) :
    ∃ t, t ≤ 63 ∧ a = 2 ^ t ∧ get_index_for_size a = t := by
  obtain ⟨t, ht, hat, _⟩ := get_next_power_of_two_spec n a ha
  exact ⟨t, ht, hat, by rw [hat]; exact get_index_for_size_pow t (by omega)⟩

/-- In a reachable state, for a request `n ≥ 1` that `get_next_power_of_two` rounds to `a`,
of class at most 31, `allocate(n)` returns, and it returns `nullptr` exactly when every free
list from the class of `a` to class 31 is empty; the state is then as before. -/
theorem allocate_null_iff_of_adjusted (s : BuddyAllocator) (n a : Nat)
    (hr : Reachable s) (hn : 1 ≤ n) (ha : get_next_power_of_two n = .ok a)
    (ht : get_index_for_size a ≤ 31) :
    ∃ p s1, allocate s n = .ok (p, s1) ∧
      (p = 0 ↔ ∀ j, get_index_for_size a ≤ j → j ≤ 31 → cls s j = []) ∧
      (p = 0 → get_used_memory s1 = get_used_memory s ∧ s1.free_blocks = s.free_blocks) := by
  have hw := Reachable.wf s hr
  obtain ⟨t, _, hat, hidx⟩ := class_of_adjusted n a ha
  rw [hidx] at ht ⊢
  rcases allocate_cases s n a t hw (by omega) ha hat ht with
    ⟨h0, h1⟩ | ⟨m, x, B, p, s1, k1, k2, k3, _, h1, hq⟩
  · exact ⟨0, s, h1, ⟨fun _ => h0, fun _ => rfl⟩, fun _ => ⟨rfl, rfl⟩⟩
  · refine ⟨p, s1, h1, ⟨fun e => absurd e hq.ptr_pos, fun h => absurd (h m k1 k2) k3⟩,
      fun e => absurd e hq.ptr_pos⟩

/-- In a reachable state, when the free list of the class of `a`, the size
`get_next_power_of_two` rounds the request `n ≥ 1` to, is not empty, `allocate(n)` returns
the address of the last block of that list, takes exactly that block out of the list,
leaves every other list as it was, and creates no block record. -/
theorem allocate_exact_hit_of_adjusted (s : BuddyAllocator) (n a : Nat)
    (hr : Reachable s) (hn : 1 ≤ n) (ha : get_next_power_of_two n = .ok a)
    (hne : cls s (get_index_for_size a) ≠ []) :
    ∃ x B s1, (cls s (get_index_for_size a)).getLast? = some x ∧ block_at s x = some B ∧
      allocate s n = .ok (B.memory, s1) ∧
      s1.free_blocks =
        s.free_blocks.set (get_index_for_size a) (cls s (get_index_for_size a)).dropLast ∧
      s1.heap.length = s.heap.length := by
  have hw := Reachable.wf s hr
  obtain ⟨t, _, hat, hidx⟩ := class_of_adjusted n a ha
  rw [hidx] at hne ⊢
  have ht : t ≤ 31 := by
    obtain ⟨y, hy⟩ := List.exists_mem_of_ne_nil _ hne
    have := cls_nonempty_lt s t y hy
    have := hw.len
    omega
  obtain ⟨x, B, p, s1, h1, hq⟩ := allocate_some s n a t t hw (by omega) ha hat (le_refl _) ht hne
    (fun j h1 h2 => by omega)
  have hp : p = B.memory := by
    have := hq.ptr
    omega
  subst hp
  refine ⟨x, B, s1, ?_, hq.donor, h1, hq.same rfl, ?_⟩
  · rw [hq.last]; simp
  · rw [hq.heap_len]; simp

theorem pow2_loop_min (size : Nat) :
    ∀ fuel j r, j + fuel = 64 → (j = 0 ∨ 2 ^ (j - 1) < size) →
      pow2_loop fuel (2 ^ j % SIZE_MOD) size = some r →
      ∃ K, K ≤ 63 ∧ r = 2 ^ K ∧ size ≤ 2 ^ K ∧ (K = 0 ∨ 2 ^ (K - 1) < size) := by
  intro fuel
  induction fuel with
  | zero =>
    intro j r hj hmin h
    have : j = 64 := by omega
    subst this
    have hs : 0 < size := by
      rcases hmin with h0 | h0
      · omega
      · have : 0 < 2 ^ (64 - 1) := by positivity
        omega
    simp [pow2_loop, SIZE_MOD, hs] at h
  | succ fuel ih =>
    intro j r hj hmin h
    have hj63 : j ≤ 63 := by omega
    have hlt : 2 ^ j < 2 ^ 64 := Nat.pow_lt_pow_right (by norm_num) (by omega)
    have hm : 2 ^ j % SIZE_MOD = 2 ^ j := Nat.mod_eq_of_lt (by simpa [SIZE_MOD] using hlt)
    rw [hm] at h
    unfold pow2_loop at h
    by_cases hc : 2 ^ j < size
    · simp only [hc, if_true] at h
      have e : (2 ^ j <<< 1) % SIZE_MOD = 2 ^ (j + 1) % SIZE_MOD := by
        simp [Nat.shiftLeft_eq, pow_succ]
      rw [e] at h
      exact ih (j + 1) r (by omega) (Or.inr (by simpa using hc)) h
    · simp only [hc, if_false, Option.some.injEq] at h
      exact ⟨j, hj63, h.symm, by omega, hmin⟩

theorem pow2_loop_total (size : Nat) (hs : size ≤ 2 ^ 63) :
    ∀ fuel j, j + fuel = 64 → j ≤ 63 → ∃ r, pow2_loop fuel (2 ^ j % SIZE_MOD) size = some r := by
  intro fuel
  induction fuel with
  | zero => intro j hj h63; omega
  | succ fuel ih =>
    intro j hj h63
    have hlt : 2 ^ j < 2 ^ 64 := Nat.pow_lt_pow_right (by norm_num) (by omega)
    have hm : 2 ^ j % SIZE_MOD = 2 ^ j := Nat.mod_eq_of_lt (by simpa [SIZE_MOD] using hlt)
    rw [hm]
    unfold pow2_loop
    by_cases hc : 2 ^ j < size
    · simp only [hc, if_true]
      have e : (2 ^ j <<< 1) % SIZE_MOD = 2 ^ (j + 1) % SIZE_MOD := by
        simp [Nat.shiftLeft_eq, pow_succ]
      rw [e]
      have hj62 : j < 63 := by
        by_contra hcon
        have : j = 63 := by omega
        subst this
        omega
      exact ih (j + 1) (by omega) (by omega)
    · simp only [hc, if_false]
      exact ⟨_, rfl⟩

/-- For a capacity of at most `2^31` and a reserved arena the constructor returns the state
`fresh K pool`, where `2^K` is the smallest power of two that is at least the capacity. -/
theorem construct_ok (C pool : Nat) (hC : C ≤ 2 ^ 31) (hp : pool ≠ 0) :
    ∃ K, K ≤ 31 ∧ C ≤ 2 ^ K ∧ (K = 0 ∨ 2 ^ (K - 1) < C) ∧
      construct C pool = .ok (fresh K pool) := by
  have h63 : C ≤ 2 ^ 63 := le_trans hC (Nat.pow_le_pow_right (by norm_num) (by norm_num))
  obtain ⟨r, hr⟩ := pow2_loop_total C h63 64 0 (by omega) (by omega)
  obtain ⟨K, hK, hrK, hle, hmin⟩ := pow2_loop_min C 64 0 r (by omega) (Or.inl rfl) hr
  have hr1 : pow2_loop 64 1 C = some (2 ^ K) := by
    rw [← hrK]; simpa [SIZE_MOD] using hr
  have hK31 : K ≤ 31 := by
    rcases hmin with h0 | h0
    · omega
    · by_contra hcon
      have : (2:Nat) ^ 31 ≤ 2 ^ (K - 1) := Nat.pow_le_pow_right (by norm_num) (by omega)
      omega
  refine ⟨K, hK31, hle, hmin, ?_⟩
  unfold construct
  rw [hr1]
  simp only [hp, if_false]
  rw [get_index_for_size_pow K (by omega)]
  have : ¬ 32 ≤ K := by omega
  simp only [this, if_false]
  rfl

/-- C11 as stated fails: for the capacity `2^31 + 1` the constructor indexes `free_blocks` at
class 32, outside the array, and for `2^63 + 1` its doubling loop does not end. -/
theorem C11_construct_large_capacity_counterexample :
    construct (2 ^ 31 + 1) 1000 = .error .undefined_behaviour ∧
    construct (2 ^ 63 + 1) 1000 = .error .nontermination :=
  ⟨rfl, rfl⟩

/-- C11 as amended: for every capacity `1 ≤ C ≤ 2^31` (and a reserved arena) the constructor
returns; `total_memory()` is the smallest power of two that is at least `C`, `used_memory()`
is 0, and the free-list table holds exactly one block, in class `log2(total_size)`: the block
of size `total_size` at offset 0, free. -/
theorem C11_construct_initial_state (C pool : Nat) (_hC1 : 1 ≤ C) (hC : C ≤ 2 ^ 31)
    (hp : pool ≠ 0) :
    ∃ s K, construct C pool = .ok s ∧
      get_total_memory s = 2 ^ K ∧ C ≤ 2 ^ K ∧ (∀ j, C ≤ 2 ^ j → 2 ^ K ≤ 2 ^ j) ∧
      get_used_memory s = 0 ∧
      get_index_for_size s.total_size = K ∧
      s.free_blocks = (List.replicate 32 []).set K [0] ∧
      s.heap = [some { size := s.total_size, free := true, memory := s.memory_pool + 0,
                       buddy := none, parent := none }] := by
  obtain ⟨K, hK, hle, hmin, hcon⟩ := construct_ok C pool hC hp
  refine ⟨fresh K pool, K, hcon, rfl, hle, ?_, rfl, ?_, rfl, rfl⟩
  · intro j hj
    apply Nat.pow_le_pow_right (by norm_num)
    rcases hmin with h0 | h0
    · omega
    · by_contra hcon2
      have : (2:Nat) ^ j ≤ 2 ^ (K - 1) := Nat.pow_le_pow_right (by norm_num) (by omega)
      omega
  · show get_index_for_size (2 ^ K) = K
    exact get_index_for_size_pow K (by omega)

/-- C11 as amended, at `construct(100)`. -/
theorem C11_construct_initial_state_witness :
    ∃ s K, construct 100 1000 = .ok s ∧
      get_total_memory s = 2 ^ K ∧ 100 ≤ 2 ^ K ∧ (∀ j, 100 ≤ 2 ^ j → 2 ^ K ≤ 2 ^ j) ∧
      get_used_memory s = 0 ∧
      get_index_for_size s.total_size = K ∧
      s.free_blocks = (List.replicate 32 []).set K [0] ∧
      s.heap = [some { size := s.total_size, free := true, memory := s.memory_pool + 0,
                       buddy := none, parent := none }] :=
  C11_construct_initial_state 100 1000 (by decide) (by decide) (by decide)

/-- C13: in every state `allocate(0)` returns `nullptr` and leaves the state, with
`used_memory`, every free list and every block record, as it was. -/
theorem C13_allocate_zero (s : BuddyAllocator) : allocate s 0 = .ok (0, s) := by
  simp [allocate]

theorem heap_sum_lt_exists (f g : Block → Nat) :
    ∀ h : List (Option Block), heap_sum f h < heap_sum g h →
      ∃ (b : Nat) (B : Block), (h[b]?).join = some B ∧ f B < g B := by
  intro h
  induction h with
  | nil => intro hlt; simp [heap_sum] at hlt
  | cons o h ih =>
    intro hlt
    simp only [heap_sum, List.map_cons, List.sum_cons] at hlt ih
    cases o with
    | none =>
      simp only [zero_add] at hlt
      obtain ⟨b, B, hb, hfg⟩ := ih hlt
      exact ⟨b + 1, B, by simpa using hb, hfg⟩
    | some X =>
      simp only at hlt
      by_cases e : f X < g X
      · exact ⟨0, X, by simp, e⟩
      · obtain ⟨b, B, hb, hfg⟩ := ih (by omega)
        exact ⟨b + 1, B, by simpa using hb, hfg⟩

theorem heap_sum_lt (f g : Block → Nat) (hfg : ∀ b, f b ≤ g b) (B : Block) (hB : f B < g B) :
    ∀ (h : List (Option Block)) (b : Nat), (h[b]?).join = some B →
      heap_sum f h < heap_sum g h := by
  intro h
  induction h with
  | nil => intro b hb; simp at hb
  | cons o h ih =>
    intro b hb
    have hle := heap_sum_le f g hfg h
    simp only [heap_sum, List.map_cons, List.sum_cons] at ih hle ⊢
    cases b with
    | zero =>
      simp at hb
      subst hb
      simp only
      omega
    | succ b =>
      have := ih b (by simpa using hb)
      cases o with
      | none => simpa using this
      | some X => have := hfg X; simp only; omega

theorem alloc_size_le (b : Block) : alloc_size b ≤ b.size := by
  unfold alloc_size
  split <;> omega

/-- While `used_memory` is below `total_size`, some free list is not empty. -/
theorem free_block_exists (s : BuddyAllocator) (hw : WF s none) (hacc : Acct s)
    (hlt : s.used_memory < s.total_size) : ∃ m, m ≤ 31 ∧ cls s m ≠ [] := by
  unfold Acct at hacc
  rw [hacc, ← hw.sum] at hlt
  obtain ⟨b, B, hb, hfg⟩ := heap_sum_lt_exists _ _ s.heap hlt
  have hfree : B.free = true := by
    by_contra hc
    have : B.free = false := by simpa using hc
    simp [alloc_size, this] at hfg
  have hin : ¬ ∀ i, b ∉ cls s i := by
    intro hout
    have := hw.alloc b B hb hout (by simp)
    rw [hfree] at this
    cases this
  push_neg at hin
  obtain ⟨i, hi⟩ := hin
  have := cls_nonempty_lt s i b hi
  have := hw.len
  exact ⟨i, by omega, List.ne_nil_of_mem hi⟩

/-- When `used_memory` has reached `total_size`, every free list is empty. -/
theorem lists_empty_of_full (s : BuddyAllocator) (hw : WF s none) (hacc : Acct s)
    (hfull : s.used_memory = s.total_size) : ∀ i, cls s i = [] := by
  intro i
  by_contra hne
  obtain ⟨x, hx⟩ := List.exists_mem_of_ne_nil _ hne
  obtain ⟨B, hB, hBs, hBf⟩ := hw.mem i x hx
  have hpos : 0 < 2 ^ i := by positivity
  have : heap_sum alloc_size s.heap < heap_sum Block.size s.heap :=
    heap_sum_lt alloc_size Block.size alloc_size_le B (by simp [alloc_size, hBf, hBs]) s.heap x hB
  unfold Acct at hacc
  rw [hw.sum, ← hacc] at this
  omega

theorem allocate_one (s : BuddyAllocator) (hw : WF s none) (hacc : Acct s)
    (hlt : s.used_memory < s.total_size) :
    ∃ p s1, allocate s 1 = .ok (p, s1) ∧ p ≠ 0 ∧ WF s1 none ∧ Acct s1 ∧
      s1.used_memory = s.used_memory + 1 ∧ s1.total_size = s.total_size := by
  obtain ⟨m, hm, hne⟩ := free_block_exists s hw hacc hlt
  have ha : get_next_power_of_two 1 = .ok (2 ^ 0) := rfl
  rcases allocate_cases s 1 (2 ^ 0) 0 hw (by omega) ha rfl (by omega) with
    ⟨h0, _⟩ | ⟨d, x, B, p, s1, _, _, _, _, h1, hq⟩
  · exact absurd (h0 m (by omega) hm) hne
  · have hacc1 := Acct_allocate s s1 1 p hw hacc h1
    refine ⟨p, s1, h1, hq.ptr_pos, hq.wf, hacc1, ?_, hq.total⟩
    unfold Acct at hacc hacc1
    rw [hacc1, hq.acct, hacc]
    simp

theorem exhaust (k : Nat) : ∀ s, WF s none → Acct s → s.used_memory + k ≤ s.total_size →
    (run_allocs s (List.replicate k 1)).length = k ∧
    WF (state_after_run s (List.replicate k 1)) none ∧
    Acct (state_after_run s (List.replicate k 1)) ∧
    (state_after_run s (List.replicate k 1)).used_memory = s.used_memory + k ∧
    (state_after_run s (List.replicate k 1)).total_size = s.total_size := by
  induction k with
  | zero => intro s hw hacc _; exact ⟨rfl, hw, hacc, rfl, rfl⟩
  | succ k ih =>
    intro s hw hacc hle
    obtain ⟨p, s1, h1, hp, hw1, hacc1, hu, ht⟩ := allocate_one s hw hacc (by omega)
    obtain ⟨i1, i2, i3, i4, i5⟩ := ih s1 hw1 hacc1 (by omega)
    simp only [List.replicate_succ, run_allocs, state_after_run, h1, hp, if_false,
      List.length_cons]
    exact ⟨by omega, i2, i3, by omega, by omega⟩

theorem run_allocs_sizes : ∀ (ns : List Nat) (s : BuddyAllocator) (r : Nat × Nat),
    r ∈ run_allocs s ns → r.2 ∈ ns := by
  intro ns
  induction ns with
  | nil => intro s r hr; simp [run_allocs] at hr
  | cons n ns ih =>
    intro s r hr
    unfold run_allocs at hr
    cases hal : allocate s n with
    | error e => simp [hal] at hr
    | ok v =>
      obtain ⟨p, s1⟩ := v
      simp only [hal] at hr
      by_cases hp : p = 0
      · simp only [hp, if_true] at hr
        exact List.mem_cons_of_mem _ (ih s1 r hr)
      · simp only [hp, if_false, List.mem_cons] at hr
        rcases hr with e | hr
        · subst e; simp
        · exact List.mem_cons_of_mem _ (ih s1 r hr)

theorem run_ones_nodup (s : BuddyAllocator) (hw : WF s none) (k : Nat) :
    ((run_allocs s (List.replicate k 1)).map Prod.fst).Nodup := by
  obtain ⟨h1, _⟩ := run_allocs_spec (List.replicate k 1) s hw
  rw [List.Nodup, List.pairwise_map]
  refine List.Pairwise.imp_of_mem ?_ h1
  intro r1 r2 hr1 hr2 hap
  have e1 : r1.2 = 1 := List.eq_of_mem_replicate (run_allocs_sizes _ s r1 hr1)
  have e2 : r2.2 = 1 := List.eq_of_mem_replicate (run_allocs_sizes _ s r2 hr2)
  have := hap 1 1 (by rw [e1]; rfl) (by rw [e2]; rfl)
  omega

/-- C12: on a constructed allocator with `total_size = 128`, the first 128 calls of
`allocate(1)` all return an address, the 128 addresses are distinct and `used_memory` reaches
128; the 129th call returns `nullptr` and leaves the state, with `used_memory = 128`, as it
was. -/
theorem C12_exhaustion (C pool : Nat) (s : BuddyAllocator) (hc : construct C pool = .ok s)
    (h128 : s.total_size = 128) :
    (run_allocs s (List.replicate 128 1)).length = 128 ∧
    ((run_allocs s (List.replicate 128 1)).map Prod.fst).Nodup ∧
    get_used_memory (state_after_run s (List.replicate 128 1)) = 128 ∧
    allocate (state_after_run s (List.replicate 128 1)) 1 =
      .ok (0, state_after_run s (List.replicate 128 1)) := by
  have hw := WF_of_construct C pool s hc
  obtain ⟨K, _, _, _, hfresh⟩ := construct_spec C pool s hc
  have hacc : Acct s := by rw [hfresh]; exact Acct_fresh K pool
  have hu0 : s.used_memory = 0 := by rw [hfresh]; rfl
  obtain ⟨e1, e2, e3, e4, e5⟩ := exhaust 128 s hw hacc (by omega)
  refine ⟨e1, run_ones_nodup s hw 128, by unfold get_used_memory; omega, ?_⟩
  have hempty := lists_empty_of_full _ e2 e3 (by omega)
  have ha : get_next_power_of_two 1 = .ok (2 ^ 0) := rfl
  exact allocate_none _ 1 (2 ^ 0) 0 (by omega) ha rfl (by omega) (fun j _ _ => hempty j)

/-- C12 at `construct(128)` with the arena at address 1000. -/
theorem C12_exhaustion_witness :
    (run_allocs (fresh 7 1000) (List.replicate 128 1)).length = 128 ∧
    ((run_allocs (fresh 7 1000) (List.replicate 128 1)).map Prod.fst).Nodup ∧
    get_used_memory (state_after_run (fresh 7 1000) (List.replicate 128 1)) = 128 ∧
    allocate (state_after_run (fresh 7 1000) (List.replicate 128 1)) 1 =
      .ok (0, state_after_run (fresh 7 1000) (List.replicate 128 1)) :=
  C12_exhaustion 128 1000 (fresh 7 1000) rfl rfl

theorem split_loop_closed (P : BuddyAllocator → Prop) (hP : Closed P) (t : Nat) :
    ∀ d fuel s b B k, WF s (some b) → block_at s b = some B → B.size = 2 ^ k →
      t ≤ k → k ≤ 31 → k - t = d → d ≤ fuel → (∀ j, t ≤ j → j < k → cls s j = []) → P s →
      ∀ bf sf, split_loop fuel s b (2 ^ t) = .ok (bf, sf) → P sf := by
  intro d
  induction d with
  | zero =>
    intro fuel s b B k hw hB hk htk hk31 hd hf hem hPs bf sf hrun
    have e : k = t := by omega
    subst e
    rw [split_loop_stop fuel s b B _ hB (by rw [hk])] at hrun
    cases hrun
    exact hPs
  | succ d ih =>
    intro fuel s b B k hw hB hk htk hk31 hd hf hem hPs bf sf hrun
    obtain ⟨f, rfl⟩ : ∃ f, fuel = f + 1 := ⟨fuel - 1, by omega⟩
    have htk' : t < k := by omega
    have hb : b < s.heap.length := block_at_lt s b B hB
    rw [split_loop_step f s b B k t hw.len hB hk htk' hk31 hem] at hrun
    have hw2 := WF_after_split s b B k t hw hB hk htk' hk31 hem
    have hcl := fun j => cls_after_split s b B k j hw.len hk (by omega) hk31
    have hhalf : B.size / 2 = 2 ^ (k - 1) := by rw [hk]; exact half_pow k (by omega)
    have hnew : block_at (after_split s b B) s.heap.length = some (upper_half B b) := by
      rw [block_at_after_split s b B _ hb]; simp
    have hem2 : ∀ j, t ≤ j → j < k - 1 → cls (after_split s b B) j = [] := by
      intro j h1 h2
      rw [hcl]
      have : ¬ j = k - 1 := by omega
      simp only [this, if_false]
      exact hem j h1 (by omega)
    exact ih f (after_split s b B) s.heap.length (upper_half B b) (k - 1) hw2 hnew
      (by simp [upper_half, hhalf]) (by omega) (by omega) (by omega) (by omega) hem2
      (hP.split s b B k hw hB hk (by omega) hk31 hPs) bf sf hrun

theorem allocate_closed (P : BuddyAllocator → Prop) (hP : Closed P) (s s1 : BuddyAllocator)
    (n p : Nat) (hw : WF s none) (hPs : P s) (h : allocate s n = .ok (p, s1)) : P s1 := by
  by_cases hn : n = 0
  · subst hn
    simp [allocate] at h
    rw [← h.2]; exact hPs
  · rcases allocate_ok_class s s1 n p h with hn0 | ⟨a, t, ha, hat, ht, _⟩
    · exact absurd hn0 hn
    · subst hat
      rcases first_class s t ht with h0 | ⟨m, htm, hm, hne, hem⟩
      · rw [allocate_none s n _ t hn ha rfl ht h0] at h
        cases h
        exact hPs
      · obtain ⟨x, B, hx, _, hB, hBs, hw1⟩ := WF_take_back s m hw hm hne
        have hcl1 := fun j => cls_take_back s m j hw.len hm
        have hem1 : ∀ j, t ≤ j → j < m → cls (take_back s m).2 j = [] := by
          intro j h1 h2
          rw [hcl1]
          have : ¬ j = m := by omega
          simp only [this, if_false]
          exact hem j h1 h2
        have hB1 : block_at (take_back s m).2 x = some B := hB
        obtain ⟨bf, sf, Bf, hrun, hp⟩ := split_loop_spec t (m - t) 32 (take_back s m).2 x B m
          hw1 hB1 hBs htm hm rfl (by omega) hem1
        have hPsf := split_loop_closed P hP t (m - t) 32 (take_back s m).2 x B m hw1 hB1 hBs
          htm hm rfl (by omega) hem1 (hP.take s m hPs) bf sf hrun
        have hfind : find_best_block s (2 ^ t) = .ok (some x, (take_back s m).2) := by
          rw [find_best_first s t m htm hm hne hem]
          have : take_back s m = ((take_back s m).1, (take_back s m).2) := rfl
          rw [this, hx]
        have hres : allocate s n = .ok (Bf.memory, hand_out sf bf Bf) := by
          unfold allocate
          simp only [hn, if_false, ha]
          rw [hfind]
          simp only [hrun, deref_of_block_at sf bf Bf hp.at_bf]
          rfl
        rw [hres] at h
        cases h
        exact hP.hand sf bf Bf hp.wf hp.at_bf hPsf

theorem Reachable.closed (P : BuddyAllocator → Prop) (hP : Closed P) (s : BuddyAllocator)
    (h : Reachable s) : P s := by
  induction h with
  | construct size pool s h =>
    obtain ⟨K, hK, hp, _, rfl⟩ := construct_spec size pool s h
    exact hP.init K pool hK hp
  | allocate s s1 n p hr h ih => exact allocate_closed P hP s s1 n p (Reachable.wf s hr) ih h
  | deallocate s s1 p hr h ih =>
    rcases deallocate_ok s s1 p (Reachable.wf s hr) h with e | ⟨_, _, _, _, _, _, _, e⟩
    · rw [e]; exact ih
    · rw [e]; exact hP.used s _ ih

theorem Covers_closed : Closed Covers where
  init := by
    intro K pool _ _ addr h1 h2
    exact ⟨0, Block.mk_new (2 ^ K) pool, by rw [block_at_fresh]; simp, h1, h2⟩
  take := fun s m h => h
  used := fun s u h => h
  split := by
    intro s b B k hw hB hk hk0 hk31 hc addr h1 h2
    have hb : b < s.heap.length := block_at_lt s b B hB
    have hat := fun c => block_at_after_split s b B c hb
    have hhalf : B.size / 2 = 2 ^ (k - 1) := by rw [hk]; exact half_pow k hk0
    have hkk : 2 ^ k = 2 ^ (k - 1) + 2 ^ (k - 1) := by
      obtain ⟨j, rfl⟩ : ∃ j, k = j + 1 := ⟨k - 1, by omega⟩
      simp [pow_succ]; omega
    obtain ⟨c, C, hC, g1, g2⟩ := hc addr h1 h2
    by_cases e : c = b
    · subst e
      rw [hB] at hC; cases hC
      rw [hk] at g2
      by_cases hlow : addr < B.memory + 2 ^ (k - 1)
      · refine ⟨c, lower_half B s.heap.length, ?_, g1, ?_⟩
        · rw [hat]; simp [Nat.ne_of_lt hb]
        · simpa [lower_half, hhalf] using hlow
      · refine ⟨s.heap.length, upper_half B c, ?_, ?_, ?_⟩
        · rw [hat]; simp
        · simp only [upper_half, hhalf]; omega
        · simp only [upper_half, hhalf]; omega
    · have hclt := block_at_lt s c C hC
      exact ⟨c, C, by rw [hat]; simp [Nat.ne_of_lt hclt, e, hC], g1, g2⟩
  hand := by
    intro s b B hw hB hc addr h1 h2
    have hb : b < s.heap.length := block_at_lt s b B hB
    obtain ⟨c, C, hC, g1, g2⟩ := hc addr h1 h2
    by_cases e : c = b
    · subst e
      rw [hB] at hC; cases hC
      exact ⟨c, { B with free := false }, by rw [block_at_hand_out s c B c hb]; simp, g1, g2⟩
    · exact ⟨c, C, by rw [block_at_hand_out s b B c hb]; simp [e, hC], g1, g2⟩

theorem Reachable.covers (s : BuddyAllocator) (h : Reachable s) : Covers s :=
  Reachable.closed Covers Covers_closed s h

theorem extant_of_block_at (s : BuddyAllocator) (hw : WF s none) (b : Nat) (B : Block)
    (hB : block_at s b = some B) : extant s b B := by
  refine ⟨hB, ?_⟩
  by_cases hin : in_free_lists s b
  · exact Or.inl hin
  · right
    apply hw.alloc b B hB
    · intro i hi; exact hin ⟨i, hi⟩
    · simp

/-- C14: in a state reached by `allocate` calls, the ranges `[memory, memory + size)` of the
extant blocks (free-listed or allocated) are pairwise disjoint, lie in the arena and cover
it; an allocated block meets no free-listed block; every record of the store is extant and
the sizes sum to `total_size`. -/
theorem C14_tiling (s : BuddyAllocator) (hr : ReachableByAlloc s) :
    (∀ b c B C, extant s b B → extant s c C → b ≠ c →
      B.memory + B.size ≤ C.memory ∨ C.memory + C.size ≤ B.memory) ∧
    (∀ b B, extant s b B →
      s.memory_pool ≤ B.memory ∧ B.memory + B.size ≤ s.memory_pool + s.total_size) ∧
    (∀ addr, s.memory_pool ≤ addr → addr < s.memory_pool + s.total_size →
      ∃ b B, extant s b B ∧ B.memory ≤ addr ∧ addr < B.memory + B.size) ∧
    (∀ b c B C, extant s b B → extant s c C → B.free = false → in_free_lists s c →
      B.memory + B.size ≤ C.memory ∨ C.memory + C.size ≤ B.memory) ∧
    (∀ b, b < s.heap.length → ∃ B, extant s b B) ∧
    heap_sum Block.size s.heap = s.total_size := by
  have hre := ReachableByAlloc.reachable s hr
  have hw := Reachable.wf s hre
  have hcov := Reachable.covers s hre
  refine ⟨?_, ?_, ?_, ?_, ?_, hw.sum⟩
  · intro b c B C hb hc hne
    exact hw.disj b c B C hne hb.1 hc.1
  · intro b B hb
    exact (hw.geom b B hb.1).2
  · intro addr h1 h2
    obtain ⟨b, B, hB, g1, g2⟩ := hcov addr h1 h2
    exact ⟨b, B, extant_of_block_at s hw b B hB, g1, g2⟩
  · intro b c B C hb hc hBf ⟨i, hi⟩
    have hne : b ≠ c := by
      intro e
      subst e
      obtain ⟨B', hB', _, hf⟩ := hw.mem i b hi
      rw [hb.1] at hB'
      cases hB'
      rw [hBf] at hf
      cases hf
    exact hw.disj b c B C hne hb.1 hc.1
  · intro b hb
    obtain ⟨B, hB⟩ := hw.live b hb
    exact ⟨B, extant_of_block_at s hw b B hB⟩

/-- C14 at the state after `construct(100)` and `allocate(40)`. -/
theorem C14_tiling_witness :
    (∀ b c B C, extant (state_after_allocate (fresh 7 1000) 40) b B →
      extant (state_after_allocate (fresh 7 1000) 40) c C → b ≠ c →
      B.memory + B.size ≤ C.memory ∨ C.memory + C.size ≤ B.memory) ∧
    (∀ b B, extant (state_after_allocate (fresh 7 1000) 40) b B →
      (state_after_allocate (fresh 7 1000) 40).memory_pool ≤ B.memory ∧
      B.memory + B.size ≤ (state_after_allocate (fresh 7 1000) 40).memory_pool +
        (state_after_allocate (fresh 7 1000) 40).total_size) ∧
    (∀ addr, (state_after_allocate (fresh 7 1000) 40).memory_pool ≤ addr →
      addr < (state_after_allocate (fresh 7 1000) 40).memory_pool +
        (state_after_allocate (fresh 7 1000) 40).total_size →
      ∃ b B, extant (state_after_allocate (fresh 7 1000) 40) b B ∧ B.memory ≤ addr ∧
        addr < B.memory + B.size) ∧
    (∀ b c B C, extant (state_after_allocate (fresh 7 1000) 40) b B →
      extant (state_after_allocate (fresh 7 1000) 40) c C → B.free = false →
      in_free_lists (state_after_allocate (fresh 7 1000) 40) c →
      B.memory + B.size ≤ C.memory ∨ C.memory + C.size ≤ B.memory) ∧
    (∀ b, b < (state_after_allocate (fresh 7 1000) 40).heap.length →
      ∃ B, extant (state_after_allocate (fresh 7 1000) 40) b B) ∧
    heap_sum Block.size (state_after_allocate (fresh 7 1000) 40).heap =
      (state_after_allocate (fresh 7 1000) 40).total_size :=
  C14_tiling (state_after_allocate (fresh 7 1000) 40)
    (ReachableByAlloc.allocate (fresh 7 1000) _ 40 1064
      (ReachableByAlloc.construct 100 1000 _ rfl) rfl)

/-- C15: in every state reached by the constructor and calls of `allocate` and `deallocate`
(a call that fails leaves the state it found), every block of free list `i` has size `2^i`
and `free == true`, stands once in that list and in no other list, and every block record
that stands in no free list has `free == false`. -/
theorem C15_free_lists_well_formed (s : BuddyAllocator) (hr : Reachable s) :
    (∀ i b, b ∈ cls s i → ∃ B, block_at s b = some B ∧ B.size = 2 ^ i ∧ B.free = true) ∧
    (∀ i, (cls s i).Nodup) ∧
    (∀ i j b, b ∈ cls s i → b ∈ cls s j → i = j) ∧
    (∀ b B, block_at s b = some B → ¬ in_free_lists s b → B.free = false) := by
  have hw := Reachable.wf s hr
  refine ⟨hw.mem, hw.nodup, ?_, ?_⟩
  · intro i j b hi hj
    obtain ⟨B, hB, hs, _⟩ := hw.mem i b hi
    obtain ⟨B', hB', hs', _⟩ := hw.mem j b hj
    rw [hB] at hB'
    cases hB'
    rw [hs] at hs'
    exact Nat.pow_right_injective (le_refl 2) hs'
  · intro b B hB hout
    exact (extant_of_block_at s hw b B hB).2.resolve_left hout

/-- C15 at the state after `construct(128)`, `allocate(64)` and `deallocate(base + 0)`. -/
theorem C15_free_lists_well_formed_witness :
    (∀ i b, b ∈ cls (state_after_deallocate (state_after_allocate (fresh 7 1000) 64) 1000) i →
      ∃ B, block_at (state_after_deallocate (state_after_allocate (fresh 7 1000) 64) 1000) b =
        some B ∧ B.size = 2 ^ i ∧ B.free = true) ∧
    (∀ i, (cls (state_after_deallocate (state_after_allocate (fresh 7 1000) 64) 1000) i).Nodup) ∧
    (∀ i j b, b ∈ cls (state_after_deallocate (state_after_allocate (fresh 7 1000) 64) 1000) i →
      b ∈ cls (state_after_deallocate (state_after_allocate (fresh 7 1000) 64) 1000) j → i = j) ∧
    (∀ b B, block_at (state_after_deallocate (state_after_allocate (fresh 7 1000) 64) 1000) b =
        some B →
      ¬ in_free_lists (state_after_deallocate (state_after_allocate (fresh 7 1000) 64) 1000) b →
      B.free = false) :=
  C15_free_lists_well_formed _
    (Reachable.deallocate (state_after_allocate (fresh 7 1000) 64) _ 1000
      (Reachable.allocate (fresh 7 1000) _ 64 1064 (Reachable.construct 128 1000 _ rfl) rfl) rfl)

theorem xor_lower (o k : Nat) (h : o % 2 ^ (k + 1) = 0) : o ^^^ 2 ^ k = o + 2 ^ k := by
  obtain ⟨q, rfl⟩ := Nat.dvd_of_mod_eq_zero h
  apply Nat.eq_of_testBit_eq
  intro j
  have hlt : 2 ^ k < 2 ^ (k + 1) := Nat.pow_lt_pow_right (by norm_num) (by omega)
  rw [Nat.testBit_xor, Nat.testBit_mul_pow_two_add q hlt j, Nat.testBit_mul_pow_two,
    Nat.testBit_two_pow]
  by_cases hj : j < k + 1
  · have : ¬ j ≥ k + 1 := by omega
    simp [hj, this]
  · have h1 : j ≥ k + 1 := by omega
    have h2 : ¬ k = j := by omega
    simp [hj, h1, h2]

theorem xor_upper (o k : Nat) (h : o % 2 ^ (k + 1) = 0) : (o + 2 ^ k) ^^^ 2 ^ k = o := by
  rw [← xor_lower o k h, Nat.xor_cancel_right]

theorem hand_out_cases (s : BuddyAllocator) (b : Nat) (B : Block) (hB : block_at s b = some B)
    (c : Nat) (C : Block) (hc : block_at (hand_out s b B) c = some C) :
    ∃ C0, block_at s c = some C0 ∧ C.size = C0.size ∧ C.memory = C0.memory ∧
      C.buddy = C0.buddy := by
  have hb : b < s.heap.length := block_at_lt s b B hB
  rw [block_at_hand_out s b B c hb] at hc
  by_cases e : c = b
  · subst e
    simp only [if_true, Option.some.injEq] at hc
    subst hc
    exact ⟨B, hB, rfl, rfl, rfl⟩
  · simp only [e, if_false] at hc
    exact ⟨C, hc, rfl, rfl, rfl⟩

theorem after_split_cases (s : BuddyAllocator) (b : Nat) (B : Block)
    (hB : block_at s b = some B) (c : Nat) (C : Block)
    (hc : block_at (after_split s b B) c = some C) :
    (c = s.heap.length ∧ C = upper_half B b) ∨ (c = b ∧ C = lower_half B s.heap.length) ∨
    (c ≠ s.heap.length ∧ c ≠ b ∧ block_at s c = some C) := by
  have hb : b < s.heap.length := block_at_lt s b B hB
  rw [block_at_after_split s b B c hb] at hc
  by_cases e1 : c = s.heap.length
  · simp only [e1, if_true, Option.some.injEq] at hc
    exact Or.inl ⟨e1, hc.symm⟩
  · by_cases e2 : c = b
    · simp only [e1, e2, if_true, if_false, Option.some.injEq] at hc
      subst e2
      simp only [Nat.ne_of_lt hb, if_false, Option.some.injEq] at hc
      exact Or.inr (Or.inl ⟨rfl, hc.symm⟩)
    · simp only [e1, e2, if_false] at hc
      exact Or.inr (Or.inr ⟨e1, e2, hc⟩)

theorem BuddyGeometry_closed : Closed BuddyGeometry where
  init := by
    intro K pool _ _
    constructor
    · intro b B hB
      rw [block_at_fresh] at hB
      by_cases e : b = 0
      · simp only [e, if_true, Option.some.injEq] at hB
        subst hB
        simp [fresh, Block.mk_new]
      · simp [e] at hB
    · intro c C d D hC hd _
      rw [block_at_fresh] at hC
      by_cases e : c = 0
      · simp only [e, if_true, Option.some.injEq] at hC
        subst hC
        simp [Block.mk_new] at hd
      · simp [e] at hC
  take := fun s m h => h
  used := fun s u h => h
  hand := by
    intro s b B hw hB ⟨hal, hbo⟩
    constructor
    · intro c C hC
      obtain ⟨C0, h0, h1, h2, _⟩ := hand_out_cases s b B hB c C hC
      rw [h1, h2]
      exact hal c C0 h0
    · intro c C d D hC hd hD
      obtain ⟨C0, c0, c1, c2, c3⟩ := hand_out_cases s b B hB c C hC
      obtain ⟨D0, d0, _, d2, _⟩ := hand_out_cases s b B hB d D hD
      rw [c1, c2, d2]
      exact hbo c C0 d D0 c0 (by rw [← c3]; exact hd) d0
  split := by
    intro s b B k hw hB hk hk0 hk31 ⟨hal, hbo⟩
    have hb : b < s.heap.length := block_at_lt s b B hB
    have hhalf : B.size / 2 = 2 ^ (k - 1) := by rw [hk]; exact half_pow k hk0
    have hgeo := (hw.geom b B hB).2.1
    have hpoolE : (after_split s b B).memory_pool = s.memory_pool := rfl
    have hBal := hal b B hB
    rw [hk] at hBal
    obtain ⟨j, rfl⟩ : ∃ j, k = j + 1 := ⟨k - 1, by omega⟩
    simp only [Nat.add_sub_cancel] at hhalf
    have hdvd : 2 ^ j ∣ B.memory - s.memory_pool :=
      dvd_trans (pow_dvd_pow 2 (by omega)) (Nat.dvd_of_mod_eq_zero hBal)
    have hupS : (upper_half B b).size = 2 ^ j := by simp [upper_half, hhalf]
    have hupM : (upper_half B b).memory - s.memory_pool =
        (B.memory - s.memory_pool) + 2 ^ j := by
      simp only [upper_half, hhalf]; omega
    have hloS : (lower_half B s.heap.length).size = 2 ^ j := by simp [lower_half, hhalf]
    have hloM : (lower_half B s.heap.length).memory = B.memory := by simp [lower_half]
    have hat := fun c => block_at_after_split s b B c hb
    have hat_new : block_at (after_split s b B) s.heap.length = some (upper_half B b) := by
      rw [hat]; simp
    have hat_b : block_at (after_split s b B) b = some (lower_half B s.heap.length) := by
      rw [hat]; simp [Nat.ne_of_lt hb]
    constructor
    · intro c C hC
      rw [hpoolE]
      rcases after_split_cases s b B hB c C hC with ⟨_, c2⟩ | ⟨_, c2⟩ | ⟨_, _, c3⟩
      · subst c2
        rw [hupM, hupS]
        exact Nat.mod_eq_zero_of_dvd (Nat.dvd_add hdvd (dvd_refl _))
      · subst c2
        rw [hloM, hloS]
        exact Nat.mod_eq_zero_of_dvd hdvd
      · exact hal c C c3
    · intro c C d D hC hd hD
      rw [hpoolE]
      rcases after_split_cases s b B hB c C hC with ⟨_, c2⟩ | ⟨_, c2⟩ | ⟨c1, c2, c3⟩
      · subst c2
        simp only [upper_half, Option.some.injEq] at hd
        subst hd
        rw [hat_b] at hD
        cases hD
        rw [hloM]
        show _ = ((upper_half B b).memory - s.memory_pool) ^^^ (upper_half B b).size
        rw [hupM, hupS, xor_upper _ j hBal]
      · subst c2
        simp only [lower_half, Option.some.injEq] at hd
        subst hd
        rw [hat_new] at hD
        cases hD
        rw [hupM]
        show _ = ((lower_half B s.heap.length).memory - s.memory_pool) ^^^
          (lower_half B s.heap.length).size
        rw [hloM, hloS, xor_lower _ j hBal]
      · obtain ⟨D0, hD0, _, _⟩ := hw.bud c C d c3 hd
        have hdlt := block_at_lt s d D0 hD0
        rcases after_split_cases s b B hB d D hD with ⟨d1, _⟩ | ⟨d1, d2⟩ | ⟨_, _, d3⟩
        · omega
        · subst d2
          rw [hloM]
          rw [d1] at hd
          exact hbo c C b B c3 hd hB
        · exact hbo c C d D c3 hd d3

theorem Reachable.geometry (s : BuddyAllocator) (h : Reachable s) : BuddyGeometry s :=
  Reachable.closed BuddyGeometry BuddyGeometry_closed s h

/-- C17 as stated fails: after `construct(128)` and `allocate(32)`, `get_buddy` of the free
64-byte block at offset 0 returns the record at offset 64, which has since been split and
has size 32. -/
theorem C17_stale_buddy_counterexample :
    block_at (state_after_allocate (fresh 7 1000) 32) 0 =
      some { size := 64, free := true, memory := 1000, buddy := some 1, parent := none } ∧
    get_buddy (state_after_allocate (fresh 7 1000) 32) (some 0) = .ok (some 1) ∧
    block_at (state_after_allocate (fresh 7 1000) 32) 1 =
      some { size := 32, free := true, memory := 1064, buddy := some 2, parent := none } ∧
    (32 : Nat) ≠ 64 :=
  ⟨rfl, rfl, rfl, by decide⟩

/-- C17 as amended: in a state reached by `allocate` calls, whenever `get_buddy(b)` returns
a block `b'`, the record of `b'` lies at the offset `b.offset XOR b.size` and its size is at
most the size of `b` (it is smaller when the buddy was split after the link was stored). -/
theorem C17_buddy_offset (s : BuddyAllocator) (b b1 : Nat) (B : Block)
    (hr : ReachableByAlloc s) (hB : block_at s b = some B)
    (hg : get_buddy s (some b) = .ok (some b1)) :
    ∃ B1, block_at s b1 = some B1 ∧ B1.size ≤ B.size ∧
      B1.memory - s.memory_pool = (B.memory - s.memory_pool) ^^^ B.size := by
  have hre := ReachableByAlloc.reachable s hr
  have hw := Reachable.wf s hre
  obtain ⟨_, hbo⟩ := Reachable.geometry s hre
  have hbud : B.buddy = some b1 := by
    unfold get_buddy at hg
    simp only [deref_of_block_at s b B hB] at hg
    by_cases e1 : B.size = s.total_size
    · simp [e1] at hg
    · simp only [e1, if_false] at hg
      by_cases e2 : B.memory + B.size + B.size > s.memory_pool + s.total_size
      · simp [e2] at hg
      · simp only [e2, if_false] at hg
        exact Except.ok.inj hg
  obtain ⟨B1, hB1, hle, _⟩ := hw.bud b B b1 hB hbud
  exact ⟨B1, hB1, hle, hbo b B b1 B1 hB hbud hB1⟩

/-- C17 as amended, at the state after `construct(128)` and `allocate(32)`, for the free
64-byte block at offset 0. -/
theorem C17_buddy_offset_witness :
    ∃ B1, block_at (state_after_allocate (fresh 7 1000) 32) 1 = some B1 ∧
      B1.size ≤ (Block.mk ((64 : Nat)) true 1000 (some 1) none).size ∧
      B1.memory - (state_after_allocate (fresh 7 1000) 32).memory_pool =
        ((Block.mk ((64 : Nat)) true 1000 (some 1) none).memory -
          (state_after_allocate (fresh 7 1000) 32).memory_pool) ^^^
          (Block.mk ((64 : Nat)) true 1000 (some 1) none).size :=
  C17_buddy_offset (state_after_allocate (fresh 7 1000) 32) 0 1
    (Block.mk 64 true 1000 (some 1) none)
    (ReachableByAlloc.allocate (fresh 7 1000) _ 32 1096
      (ReachableByAlloc.construct 128 1000 _ rfl) rfl) rfl rfl

theorem pow2_loop_diverges (size : Nat) (hs : 2 ^ 63 < size) :
    ∀ fuel power, (power = 0 ∨ ∃ j, j ≤ 63 ∧ power = 2 ^ j) →
      pow2_loop fuel power size = none := by
  intro fuel
  induction fuel with
  | zero =>
    intro power hp
    have hlt : power < size := by
      rcases hp with h | ⟨j, hj, h⟩
      · omega
      · have : (2:Nat) ^ j ≤ 2 ^ 63 := Nat.pow_le_pow_right (by norm_num) hj
        omega
    simp [pow2_loop, hlt]
  | succ fuel ih =>
    intro power hp
    have hlt : power < size := by
      rcases hp with h | ⟨j, hj, h⟩
      · omega
      · have : (2:Nat) ^ j ≤ 2 ^ 63 := Nat.pow_le_pow_right (by norm_num) hj
        omega
    unfold pow2_loop
    simp only [hlt, if_true]
    apply ih
    rcases hp with h | ⟨j, hj, h⟩
    · left; subst h; rfl
    · subst h
      by_cases e : j = 63
      · left; subst e; rfl
      · right
        refine ⟨j + 1, by omega, ?_⟩
        have hlt2 : 2 ^ (j + 1) < 2 ^ 64 := Nat.pow_lt_pow_right (by norm_num) (by omega)
        rw [Nat.shiftLeft_eq, ← pow_succ]
        exact Nat.mod_eq_of_lt (by simpa [SIZE_MOD] using hlt2)

theorem find_in_list_total (h : List (Option Block)) (ptr : Nat) :
    ∀ l : List Nat, (∀ x ∈ l, ∃ B, deref h x = .ok B) → ∃ o, find_in_list h ptr l = .ok o := by
  intro l
  induction l with
  | nil => intro _; exact ⟨none, rfl⟩
  | cons y l ih =>
    intro hall
    obtain ⟨B, hB⟩ := hall y (by simp)
    unfold find_in_list
    simp only [hB]
    by_cases e : B.memory ≤ ptr ∧ B.memory + B.size > ptr
    · rw [if_pos e]; exact ⟨_, rfl⟩
    · rw [if_neg e]
      exact ih (fun x hx => hall x (List.mem_cons_of_mem _ hx))

theorem find_block_total (h : List (Option Block)) (ptr : Nat) :
    ∀ ls : List (List Nat), (∀ l ∈ ls, ∀ x ∈ l, ∃ B, deref h x = .ok B) →
      ∃ o, find_block h ptr ls = .ok o := by
  intro ls
  induction ls with
  | nil => intro _; exact ⟨none, rfl⟩
  | cons l ls ih =>
    intro hall
    obtain ⟨o, ho⟩ := find_in_list_total h ptr l (hall l (by simp))
    unfold find_block
    simp only [ho]
    cases o with
    | none => exact ih (fun l' hl' => hall l' (List.mem_cons_of_mem _ hl'))
    | some x => exact ⟨_, rfl⟩

/-- On a well-formed state `deallocate` either throws or returns; it never runs into
undefined behaviour. -/
theorem deallocate_total (s : BuddyAllocator) (ptr : Nat) (hw : WF s none) :
    deallocate s ptr = .error .runtime_error ∨ ∃ s1, deallocate s ptr = .ok s1 := by
  by_cases e : ptr = 0
  · right; exact ⟨s, by simp [deallocate, e]⟩
  · have hall : ∀ l ∈ s.free_blocks, ∀ x ∈ l, ∃ B, deref s.heap x = .ok B := by
      intro l hl x hx
      obtain ⟨i, hi⟩ := mem_cls_of_mem s l x hl hx
      obtain ⟨B, hB, _⟩ := hw.mem i x hi
      exact ⟨B, deref_of_block_at s x B hB⟩
    obtain ⟨o, ho⟩ := find_block_total s.heap ptr s.free_blocks hall
    cases o with
    | none =>
      left
      unfold deallocate
      simp only [e, if_false, ho]
    | some x =>
      right
      obtain ⟨l, hl, hxl, B, hB, _, _⟩ := find_block_some s.heap ptr s.free_blocks x ho
      obtain ⟨i, hxi⟩ := mem_cls_of_mem s l x hl hxl
      have hBat := block_at_of_deref s x B hB
      obtain ⟨B', hB', _, hBf⟩ := hw.mem i x hxi
      rw [hBat] at hB'; cases hB'
      have hBB : ({ B with free := true } : Block) = B := by
        cases B; simp at hBf; simp [hBf]
      have hw' := WF_used s ((s.used_memory + SIZE_MOD - B.size) % SIZE_MOD) hw
      refine ⟨{ s with used_memory := (s.used_memory + SIZE_MOD - B.size) % SIZE_MOD }, ?_⟩
      unfold deallocate
      simp only [e, if_false, ho, hB]
      rw [hBB, set_same s.heap x (some B) (heap_at_of_block_at s x B hBat)]
      exact merge_buddies_noop 32 _ x i hw' hxi

theorem free_alloc_size (B : Block) : free_size B + alloc_size B = B.size := by
  unfold free_size alloc_size
  by_cases e : B.free = true
  · simp [e]
  · simp [e]

theorem heap_sum_free_alloc : ∀ h : List (Option Block),
    heap_sum free_size h + heap_sum alloc_size h = heap_sum Block.size h := by
  intro h
  induction h with
  | nil => simp [heap_sum]
  | cons o h ih =>
    simp only [heap_sum, List.map_cons, List.sum_cons] at ih ⊢
    cases o with
    | none => simpa using ih
    | some B =>
      have := free_alloc_size B
      simp only
      omega

theorem allocate_alloc_mono (s s1 : BuddyAllocator) (n p : Nat) (hw : WF s none)
    (h : allocate s n = .ok (p, s1)) :
    heap_sum alloc_size s.heap ≤ heap_sum alloc_size s1.heap ∧ s1.total_size = s.total_size := by
  by_cases hn : n = 0
  · subst hn
    simp [allocate] at h
    rw [← h.2]; exact ⟨le_refl _, rfl⟩
  · rcases allocate_ok_class s s1 n p h with hn0 | ⟨a, t, ha, hat, ht, _⟩
    · exact absurd hn0 hn
    · rcases allocate_cases s n a t hw hn ha hat ht with
        ⟨_, h1⟩ | ⟨m, x, B, p1, s2, _, _, _, _, h1, hq⟩
      · rw [h1] at h; cases h; exact ⟨le_refl _, rfl⟩
      · rw [h1] at h; cases h
        exact ⟨by rw [hq.acct]; omega, hq.total⟩

/-- C18 (the code departs from it): after `construct(128)`, the request `2^31 + 1` is rounded
to `2^32`, of class 32, and `find_best_block` indexes `free_blocks[32]`, outside the array of
32 vectors; the call does not return `nullptr`. -/
theorem C18_class_index_out_of_range :
    get_next_power_of_two (2 ^ 31 + 1) = .ok (2 ^ 32) ∧
    get_index_for_size (2 ^ 32) = 32 ∧
    find_best_block (fresh 7 1000) (2 ^ 32) = .error .undefined_behaviour ∧
    allocate (fresh 7 1000) (2 ^ 31 + 1) = .error .undefined_behaviour :=
  ⟨rfl, rfl, rfl, rfl⟩

/-- C19 (the code departs from it): for the request `2^63 + 1` the loop of
`get_next_power_of_two` is still running after any number of iterations (the doubled value
wraps to 0 and stays there), so `allocate` does not return. -/
theorem C19_allocate_huge_request_diverges :
    (∀ fuel, pow2_loop fuel 1 (2 ^ 63 + 1) = none) ∧
    get_next_power_of_two (2 ^ 63 + 1) = .error .nontermination ∧
    allocate (fresh 7 1000) (2 ^ 63 + 1) = .error .nontermination :=
  ⟨fun fuel => pow2_loop_diverges (2 ^ 63 + 1) (by omega) fuel 1 (Or.inr ⟨0, by omega, rfl⟩),
    rfl, rfl⟩

/-- C20: in every reachable state a call of `deallocate` either throws or returns with every
free list and every block record as before: `merge_buddies` returns before it removes or
creates a block, because the stored buddy of a free-listed block is null, allocated, or
smaller than the block. Hence no call of `allocate` or `deallocate` raises the total size of
the free blocks. -/
theorem C20_coalescing_never_fires (s : BuddyAllocator) (hr : Reachable s) :
    (∀ p, deallocate s p = .error .runtime_error ∨
      ∃ s1, deallocate s p = .ok s1 ∧ s1.free_blocks = s.free_blocks ∧ s1.heap = s.heap) ∧
    (∀ fuel i b, b ∈ cls s i → merge_buddies fuel s (some b) = .ok s) ∧
    (∀ i b B d, b ∈ cls s i → block_at s b = some B → B.buddy = some d →
      ∃ D, block_at s d = some D ∧ (D.free = false ∨ D.size < B.size)) ∧
    (∀ p s1, deallocate s p = .ok s1 →
      heap_sum free_size s1.heap ≤ heap_sum free_size s.heap) ∧
    (∀ n p s1, allocate s n = .ok (p, s1) →
      heap_sum free_size s1.heap ≤ heap_sum free_size s.heap) := by
  have hw := Reachable.wf s hr
  have hkeep : ∀ p s1, deallocate s p = .ok s1 →
      s1.free_blocks = s.free_blocks ∧ s1.heap = s.heap := by
    intro p s1 h
    rcases deallocate_ok s s1 p hw h with e | ⟨_, _, _, _, _, _, _, e⟩
    · rw [e]; exact ⟨rfl, rfl⟩
    · rw [e]; exact ⟨rfl, rfl⟩
  refine ⟨?_, ?_, ?_, ?_, ?_⟩
  · intro p
    rcases deallocate_total s p hw with h | ⟨s1, h⟩
    · exact Or.inl h
    · exact Or.inr ⟨s1, h, hkeep p s1 h⟩
  · intro fuel i b hb
    exact merge_buddies_noop fuel s b i hw hb
  · intro i b B d hb hB hd
    obtain ⟨D, hD, hle, himp⟩ := hw.bud b B d hB hd
    refine ⟨D, hD, ?_⟩
    by_cases e : D.size = B.size
    · left
      rcases himp e with h | h
      · exact absurd hb (h i)
      · exact hw.alloc d D hD h (by simp)
    · right; omega
  · intro p s1 h
    rw [(hkeep p s1 h).2]
  · intro n p s1 h
    obtain ⟨h1, h2⟩ := allocate_alloc_mono s s1 n p hw h
    have hw1 := WF_allocate s s1 n p hw h
    have e1 := heap_sum_free_alloc s.heap
    have e2 := heap_sum_free_alloc s1.heap
    rw [hw.sum] at e1
    rw [hw1.sum, h2] at e2
    omega

/-- C20 at the state after `construct(128)` and `allocate(64)`. -/
theorem C20_coalescing_never_fires_witness :
    (∀ p, deallocate (state_after_allocate (fresh 7 1000) 64) p = .error .runtime_error ∨
      ∃ s1, deallocate (state_after_allocate (fresh 7 1000) 64) p = .ok s1 ∧
        s1.free_blocks = (state_after_allocate (fresh 7 1000) 64).free_blocks ∧
        s1.heap = (state_after_allocate (fresh 7 1000) 64).heap) ∧
    (∀ fuel i b, b ∈ cls (state_after_allocate (fresh 7 1000) 64) i →
      merge_buddies fuel (state_after_allocate (fresh 7 1000) 64) (some b) =
        .ok (state_after_allocate (fresh 7 1000) 64)) ∧
    (∀ i b B d, b ∈ cls (state_after_allocate (fresh 7 1000) 64) i →
      block_at (state_after_allocate (fresh 7 1000) 64) b = some B → B.buddy = some d →
      ∃ D, block_at (state_after_allocate (fresh 7 1000) 64) d = some D ∧
        (D.free = false ∨ D.size < B.size)) ∧
    (∀ p s1, deallocate (state_after_allocate (fresh 7 1000) 64) p = .ok s1 →
      heap_sum free_size s1.heap ≤
        heap_sum free_size (state_after_allocate (fresh 7 1000) 64).heap) ∧
    (∀ n p s1, allocate (state_after_allocate (fresh 7 1000) 64) n = .ok (p, s1) →
      heap_sum free_size s1.heap ≤
        heap_sum free_size (state_after_allocate (fresh 7 1000) 64).heap) :=
  C20_coalescing_never_fires (state_after_allocate (fresh 7 1000) 64)
    (Reachable.allocate (fresh 7 1000) _ 64 1064 (Reachable.construct 128 1000 _ rfl) rfl)

theorem find_in_list_none (h : List (Option Block)) (ptr : Nat) :
    ∀ l : List Nat, find_in_list h ptr l = .ok none →
      ∀ x ∈ l, ∀ B, deref h x = .ok B → ¬ (B.memory ≤ ptr ∧ ptr < B.memory + B.size) := by
  intro l
  induction l with
  | nil => intro _ x hx; simp at hx
  | cons y l ih =>
    intro hf x hx B hB
    unfold find_in_list at hf
    cases hd : deref h y with
    | error e => simp [hd] at hf
    | ok Y =>
      simp only [hd] at hf
      by_cases e : Y.memory ≤ ptr ∧ Y.memory + Y.size > ptr
      · rw [if_pos e] at hf
        cases hf
      · rw [if_neg e] at hf
        rcases List.mem_cons.mp hx with hxy | hxl
        · subst hxy
          rw [hd] at hB
          cases hB
          exact e
        · exact ih hf x hxl B hB

theorem find_block_none (h : List (Option Block)) (ptr : Nat) :
    ∀ ls : List (List Nat), find_block h ptr ls = .ok none →
      ∀ l ∈ ls, ∀ x ∈ l, ∀ B, deref h x = .ok B →
        ¬ (B.memory ≤ ptr ∧ ptr < B.memory + B.size) := by
  intro ls
  induction ls with
  | nil => intro _ l hl; simp at hl
  | cons l0 ls ih =>
    intro hf l hl x hx B hB
    unfold find_block at hf
    cases hd : find_in_list h ptr l0 with
    | error e => simp [hd] at hf
    | ok o =>
      cases o with
      | some y => simp [hd] at hf
      | none =>
        simp only [hd] at hf
        rcases List.mem_cons.mp hl with e | hl'
        · subst e
          exact find_in_list_none h ptr l hd x hx B hB
        · exact ih hf l hl' x hx B hB

theorem mem_free_blocks_of_cls (s : BuddyAllocator) (i x : Nat) (hx : x ∈ cls s i) :
    ∃ l, l ∈ s.free_blocks ∧ x ∈ l := by
  have hi := cls_nonempty_lt s i x hx
  refine ⟨s.free_blocks[i], List.getElem_mem hi, ?_⟩
  unfold cls at hx
  rw [List.getD_eq_getElem _ _ hi] at hx
  exact hx

/-- The two outcomes of `deallocate` on a well-formed state for a non-null address: no
free-listed block holds the address and the call throws, or one does and the call returns
with only the counter changed. -/
theorem deallocate_cases (s : BuddyAllocator) (ptr : Nat) (hw : WF s none) (hp : ptr ≠ 0) :
    (deallocate s ptr = .error .runtime_error ∧
      ∀ i b B, b ∈ cls s i → block_at s b = some B →
        ¬ (B.memory ≤ ptr ∧ ptr < B.memory + B.size)) ∨
    ∃ x i B, x ∈ cls s i ∧ block_at s x = some B ∧ B.memory ≤ ptr ∧ ptr < B.memory + B.size ∧
      deallocate s ptr =
        .ok { s with used_memory := (s.used_memory + SIZE_MOD - B.size) % SIZE_MOD } := by
  have hall : ∀ l ∈ s.free_blocks, ∀ x ∈ l, ∃ B, deref s.heap x = .ok B := by
    intro l hl x hx
    obtain ⟨i, hi⟩ := mem_cls_of_mem s l x hl hx
    obtain ⟨B, hB, _⟩ := hw.mem i x hi
    exact ⟨B, deref_of_block_at s x B hB⟩
  obtain ⟨o, ho⟩ := find_block_total s.heap ptr s.free_blocks hall
  cases o with
  | none =>
    left
    constructor
    · unfold deallocate
      simp only [hp, if_false, ho]
    · intro i b B hb hB
      obtain ⟨l, hl, hbl⟩ := mem_free_blocks_of_cls s i b hb
      exact find_block_none s.heap ptr s.free_blocks ho l hl b hbl B (deref_of_block_at s b B hB)
  | some x =>
    right
    obtain ⟨l, hl, hxl, B, hB, g1, g2⟩ := find_block_some s.heap ptr s.free_blocks x ho
    obtain ⟨i, hxi⟩ := mem_cls_of_mem s l x hl hxl
    have hBat := block_at_of_deref s x B hB
    obtain ⟨B', hB', _, hBf⟩ := hw.mem i x hxi
    rw [hBat] at hB'; cases hB'
    have hBB : ({ B with free := true } : Block) = B := by
      cases B; simp at hBf; simp [hBf]
    have hw' := WF_used s ((s.used_memory + SIZE_MOD - B.size) % SIZE_MOD) hw
    refine ⟨x, i, B, hxi, hBat, g1, g2, ?_⟩
    unfold deallocate
    simp only [hp, if_false, ho, hB]
    rw [hBB, set_same s.heap x (some B) (heap_at_of_block_at s x B hBat)]
    exact merge_buddies_noop 32 _ x i hw' hxi

/-- C21: in every state of the allocator (every state reachable from the constructor) and
for every non-null address `p`, `deallocate(p)` throws `std::runtime_error` exactly when no
block stored in a free list has a range `[memory, memory + size)` that holds `p`; when a
free-listed block holds `p`, the call returns and has subtracted the size of that block from
`used_memory` modulo `2^64`. -/
theorem C21_deallocate_throws_iff (s : BuddyAllocator) (p : Nat) (hr : Reachable s)
    (hp : p ≠ 0) :
    (deallocate s p = .error .runtime_error ↔
      ¬ ∃ i b B, b ∈ cls s i ∧ block_at s b = some B ∧ B.memory ≤ p ∧ p < B.memory + B.size) ∧
    (∀ i b B, b ∈ cls s i → block_at s b = some B → B.memory ≤ p → p < B.memory + B.size →
      ∃ s1, deallocate s p = .ok s1 ∧
        get_used_memory s1 = (get_used_memory s + SIZE_MOD - B.size) % SIZE_MOD) := by
  have hw := Reachable.wf s hr
  rcases deallocate_cases s p hw hp with ⟨h1, h2⟩ | ⟨x, i, B, hx, hB, g1, g2, h3⟩
  · constructor
    · constructor
      · intro _ ⟨i, b, B, hb, hB, g1, g2⟩
        exact h2 i b B hb hB ⟨g1, g2⟩
      · intro _; exact h1
    · intro i b B hb hB g1 g2
      exact absurd ⟨g1, g2⟩ (h2 i b B hb hB)
  · constructor
    · constructor
      · intro he
        rw [h3] at he
        cases he
      · intro hno
        exact absurd ⟨i, x, B, hx, hB, g1, g2⟩ hno
    · intro j b C hb hC k1 k2
      have hbx : b = x := by
        by_contra hne
        have := hw.disj b x C B hne hC hB
        omega
      subst hbx
      rw [hB] at hC
      cases hC
      exact ⟨_, h3, rfl⟩

/-- C21 at the state after `construct(128)` and `allocate(64)`, for the address `base + 10`
inside the free-listed block at offset 0. -/
theorem C21_deallocate_throws_iff_witness :
    (deallocate (state_after_allocate (fresh 7 1000) 64) 1010 = .error .runtime_error ↔
      ¬ ∃ i b B, b ∈ cls (state_after_allocate (fresh 7 1000) 64) i ∧
        block_at (state_after_allocate (fresh 7 1000) 64) b = some B ∧
        B.memory ≤ 1010 ∧ 1010 < B.memory + B.size) ∧
    (∀ i b B, b ∈ cls (state_after_allocate (fresh 7 1000) 64) i →
      block_at (state_after_allocate (fresh 7 1000) 64) b = some B →
      B.memory ≤ 1010 → 1010 < B.memory + B.size →
      ∃ s1, deallocate (state_after_allocate (fresh 7 1000) 64) 1010 = .ok s1 ∧
        get_used_memory s1 =
          (get_used_memory (state_after_allocate (fresh 7 1000) 64) + SIZE_MOD - B.size) %
            SIZE_MOD) :=
  C21_deallocate_throws_iff (state_after_allocate (fresh 7 1000) 64) 1010
    (Reachable.allocate (fresh 7 1000) _ 64 1064 (Reachable.construct 128 1000 _ rfl) rfl)
    (by decide)

/-- C22: in every reachable state every block record, free or allocated, has a size that
is a power of two and divides `total_size`, and an offset from the arena base that is a
multiple of its size; hence `offset XOR size` is `offset + size` when the block is a lower
half (offset a multiple of twice the size) and `offset - size` when it is an upper half. -/
theorem C22_alignment (s : BuddyAllocator) (b : Nat) (B : Block) (hr : Reachable s)
    (hB : block_at s b = some B) :
    (∃ k, B.size = 2 ^ k) ∧ B.size ∣ s.total_size ∧
    (B.memory - s.memory_pool) % B.size = 0 ∧
    ((B.memory - s.memory_pool) % (2 * B.size) = 0 →
      (B.memory - s.memory_pool) ^^^ B.size = (B.memory - s.memory_pool) + B.size) ∧
    ((B.memory - s.memory_pool) % (2 * B.size) ≠ 0 →
      B.size ≤ B.memory - s.memory_pool ∧
      (B.memory - s.memory_pool) ^^^ B.size = (B.memory - s.memory_pool) - B.size) := by
  have hw := Reachable.wf s hr
  obtain ⟨hal, _⟩ := Reachable.geometry s hr
  obtain ⟨⟨k, hk31, hk⟩, g1, g2⟩ := hw.geom b B hB
  obtain ⟨K, hK31, hK⟩ := hw.tot
  have halB := hal b B hB
  have hle : B.size ≤ s.total_size := by omega
  have hkK : k ≤ K := by
    rw [hk, hK] at hle
    exact (Nat.pow_le_pow_iff_right (by norm_num)).mp hle
  have h2 : 2 * B.size = 2 ^ (k + 1) := by rw [hk, pow_succ]; ring
  refine ⟨⟨k, hk⟩, ?_, halB, ?_, ?_⟩
  · rw [hk, hK]
    exact pow_dvd_pow 2 hkK
  · intro h0
    rw [h2] at h0
    rw [hk]
    exact xor_lower _ k h0
  · intro hne
    rw [h2] at hne
    rw [hk] at halB ⊢
    -- the offset is an odd multiple of the size
    obtain ⟨q, hq⟩ := Nat.dvd_of_mod_eq_zero halB
    have hq2 : q % 2 = 1 := by
      by_contra hc
      have hq0 : q % 2 = 0 := by omega
      obtain ⟨r, hr2⟩ := Nat.dvd_of_mod_eq_zero hq0
      apply hne
      rw [hq, hr2, pow_succ]
      have : 2 ^ k * (2 * r) = 2 ^ k * 2 * r := by ring
      rw [this]
      exact Nat.mul_mod_right _ _
    obtain ⟨r, hr2⟩ : ∃ r, q = 2 * r + 1 := ⟨q / 2, by omega⟩
    have hoff : B.memory - s.memory_pool = 2 ^ (k + 1) * r + 2 ^ k := by
      rw [hq, hr2, pow_succ]; ring
    have hlow : (2 ^ (k + 1) * r) % 2 ^ (k + 1) = 0 := Nat.mul_mod_right _ _
    rw [hoff]
    constructor
    · omega
    · rw [xor_upper _ k hlow]
      omega

/-- C22 at the state after `construct(100)` and `allocate(40)`, for the allocated block at
offset 64. -/
theorem C22_alignment_witness :
    (∃ k, (64 : Nat) = 2 ^ k) ∧ 64 ∣ (state_after_allocate (fresh 7 1000) 40).total_size ∧
    (1064 - (state_after_allocate (fresh 7 1000) 40).memory_pool) % 64 = 0 ∧
    ((1064 - (state_after_allocate (fresh 7 1000) 40).memory_pool) % (2 * 64) = 0 →
      (1064 - (state_after_allocate (fresh 7 1000) 40).memory_pool) ^^^ 64 =
        (1064 - (state_after_allocate (fresh 7 1000) 40).memory_pool) + 64) ∧
    ((1064 - (state_after_allocate (fresh 7 1000) 40).memory_pool) % (2 * 64) ≠ 0 →
      64 ≤ 1064 - (state_after_allocate (fresh 7 1000) 40).memory_pool ∧
      (1064 - (state_after_allocate (fresh 7 1000) 40).memory_pool) ^^^ 64 =
        (1064 - (state_after_allocate (fresh 7 1000) 40).memory_pool) - 64) :=
  C22_alignment (state_after_allocate (fresh 7 1000) 40) 1
    (Block.mk 64 false 1064 (some 0) none)
    (Reachable.allocate (fresh 7 1000) _ 40 1064 (Reachable.construct 100 1000 _ rfl) rfl) rfl

/-- `get_next_power_of_two` returns the least power of two that is at least the request:
for `n ≥ 1` and the least `t` with `n ≤ 2^t` (at most 63) it returns `2^t`. -/
theorem next_power_of_least (n t : Nat) (hn : 1 ≤ n) (hle : n ≤ 2 ^ t)
    (hmin : t = 0 ∨ 2 ^ (t - 1) < n) (ht : t ≤ 63) :
    get_next_power_of_two n = .ok (2 ^ t) := by
  have h63 : n ≤ 2 ^ 63 := le_trans hle (Nat.pow_le_pow_right (by norm_num) ht)
  obtain ⟨r, hr⟩ := pow2_loop_total n h63 64 0 (by omega) (by omega)
  obtain ⟨K, _, hrK, hleK, hminK⟩ := pow2_loop_min n 64 0 r (by omega) (Or.inl rfl) hr
  have hKt : K = t := by
    rcases Nat.lt_trichotomy K t with h | h | h
    · exfalso
      rcases hmin with h0 | h0
      · omega
      · have : (2:Nat) ^ K ≤ 2 ^ (t - 1) := Nat.pow_le_pow_right (by norm_num) (by omega)
        omega
    · exact h
    · exfalso
      rcases hminK with h0 | h0
      · omega
      · have : (2:Nat) ^ t ≤ 2 ^ (K - 1) := Nat.pow_le_pow_right (by norm_num) (by omega)
        omega
  subst hKt
  have hr1 : pow2_loop 64 1 n = some (2 ^ K) := by
    rw [← hrK]; simpa [SIZE_MOD] using hr
  unfold get_next_power_of_two
  have hn0 : ¬ n = 0 := by omega
  simp only [hn0, if_false, hr1]

/-- C8: in a reachable state, for a request `n ≥ 1` whose target class `t`, the logarithm of
the least power of two that is at least `n`, is at most 31, `allocate(n)` returns, and it
returns `nullptr` exactly when every free list of class `t..31` is empty; when it returns
`nullptr`, `used_memory` and the free lists are as before. -/
theorem C8_no_allocation_iff_lists_empty (s : BuddyAllocator) (n t : Nat)
    (hr : Reachable s) (hn : 1 ≤ n) (hle : n ≤ 2 ^ t) (hmin : t = 0 ∨ 2 ^ (t - 1) < n)
    (ht : t ≤ 31) :
    ∃ p s1, allocate s n = .ok (p, s1) ∧
      (p = 0 ↔ ∀ j, t ≤ j → j ≤ 31 → cls s j = []) ∧
      (p = 0 → get_used_memory s1 = get_used_memory s ∧ s1.free_blocks = s.free_blocks) := by
  have ha := next_power_of_least n t hn hle hmin (by omega)
  have hidx : get_index_for_size (2 ^ t) = t := get_index_for_size_pow t (by omega)
  have h := allocate_null_iff_of_adjusted s n (2 ^ t) hr hn ha (by rw [hidx]; exact ht)
  rw [hidx] at h
  exact h

/-- C8 at the state after `construct(128)`, `allocate(32)` and `allocate(64)`, where only
class 5 holds a block, for a request of 40 bytes: its target class is 6, classes 6..31 are
empty, and the call returns `nullptr` with the state unchanged. -/
theorem C8_no_allocation_iff_lists_empty_witness :
    cls (state_after_allocate (state_after_allocate (fresh 7 1000) 32) 64) 5 = [1] ∧
    allocate (state_after_allocate (state_after_allocate (fresh 7 1000) 32) 64) 40 =
      .ok (0, state_after_allocate (state_after_allocate (fresh 7 1000) 32) 64) ∧
    ∃ p s1, allocate (state_after_allocate (state_after_allocate (fresh 7 1000) 32) 64) 40 =
        .ok (p, s1) ∧
      (p = 0 ↔ ∀ j, 6 ≤ j → j ≤ 31 →
        cls (state_after_allocate (state_after_allocate (fresh 7 1000) 32) 64) j = []) ∧
      (p = 0 → get_used_memory s1 =
          get_used_memory (state_after_allocate (state_after_allocate (fresh 7 1000) 32) 64) ∧
        s1.free_blocks =
          (state_after_allocate (state_after_allocate (fresh 7 1000) 32) 64).free_blocks) :=
  ⟨rfl, rfl,
    C8_no_allocation_iff_lists_empty
      (state_after_allocate (state_after_allocate (fresh 7 1000) 32) 64) 40 6
      (Reachable.allocate (state_after_allocate (fresh 7 1000) 32) _ 64 1000
        (Reachable.allocate (fresh 7 1000) _ 32 1096 (Reachable.construct 128 1000 _ rfl) rfl)
        rfl)
      (by decide) (by decide) (by decide) (by decide)⟩

/-- C9: in a reachable state, when the free list of the target class `t` of a request
`n ≥ 1` (the logarithm of the least power of two that is at least `n`) is not empty,
`allocate(n)` returns the address of the last block of that list (the one inserted most
recently), takes exactly that block out of list `t`, leaves every other list as it was, and
creates no block record. -/
theorem C9_exact_class_hit (s : BuddyAllocator) (n t : Nat)
    (hr : Reachable s) (hn : 1 ≤ n) (hle : n ≤ 2 ^ t) (hmin : t = 0 ∨ 2 ^ (t - 1) < n)
    (hne : cls s t ≠ []) :
    ∃ x B s1, (cls s t).getLast? = some x ∧ block_at s x = some B ∧ B.size = 2 ^ t ∧
      allocate s n = .ok (B.memory, s1) ∧
      s1.free_blocks = s.free_blocks.set t (cls s t).dropLast ∧
      s1.heap.length = s.heap.length := by
  have hw := Reachable.wf s hr
  have ht : t ≤ 31 := by
    obtain ⟨y, hy⟩ := List.exists_mem_of_ne_nil _ hne
    have := cls_nonempty_lt s t y hy
    have := hw.len
    omega
  have ha := next_power_of_least n t hn hle hmin (by omega)
  have hidx : get_index_for_size (2 ^ t) = t := get_index_for_size_pow t (by omega)
  have h := allocate_exact_hit_of_adjusted s n (2 ^ t) hr hn ha (by rw [hidx]; exact hne)
  rw [hidx] at h
  obtain ⟨x, B, s1, h1, h2, h3, h4, h5⟩ := h
  refine ⟨x, B, s1, h1, h2, ?_, h3, h4, h5⟩
  have hx : x ∈ cls s t := List.mem_of_getLast?_eq_some h1
  obtain ⟨B', hB', hs, _⟩ := hw.mem t x hx
  rw [h2] at hB'
  cases hB'
  exact hs

/-- C9 at the state after `construct(128)` and `allocate(32)`, where class 6 holds the
block at offset 0 and class 5 the block at offset 64, for a request of 40 bytes: its target
class is 6, and the call returns `base + 0`, the 64-byte block of class 6, without a
split. -/
theorem C9_exact_class_hit_witness :
    cls (state_after_allocate (fresh 7 1000) 32) 6 = [0] ∧
    cls (state_after_allocate (fresh 7 1000) 32) 5 = [1] ∧
    (allocate (state_after_allocate (fresh 7 1000) 32) 40).map Prod.fst = .ok 1000 ∧
    ∃ x B s1, (cls (state_after_allocate (fresh 7 1000) 32) 6).getLast? = some x ∧
      block_at (state_after_allocate (fresh 7 1000) 32) x = some B ∧ B.size = 2 ^ 6 ∧
      allocate (state_after_allocate (fresh 7 1000) 32) 40 = .ok (B.memory, s1) ∧
      s1.free_blocks = (state_after_allocate (fresh 7 1000) 32).free_blocks.set 6
        (cls (state_after_allocate (fresh 7 1000) 32) 6).dropLast ∧
      s1.heap.length = (state_after_allocate (fresh 7 1000) 32).heap.length :=
  ⟨rfl, rfl, rfl,
    C9_exact_class_hit (state_after_allocate (fresh 7 1000) 32) 40 6
      (Reachable.allocate (fresh 7 1000) _ 32 1096 (Reachable.construct 128 1000 _ rfl) rfl)
      (by decide) (by decide) (by decide) (by decide)⟩

end Buddy
